import Mathlib

/-!
Verification development for the `liquid_audio_chat_rs` repository.

The stream decoder (`src/api.rs`, `process_stream`) is embedded at the byte
level: network chunks are lists of bytes (`Nat` below 256), the internal
`String` buffer is a byte list, and line splitting, trimming, tag stripping
and the per-line state machine mirror the Rust source.  External library
calls (serde_json, the base64 engine) are modelled by explicit Lean
functions; the decoder itself is parameterised over the JSON parse function
so that the structural theorems hold for every parser, and a concrete
parser modelled from the documented wire format is supplied for witnesses.

The real-time audio engine (`src/audio.rs`) is embedded as a pure state
machine: the playback queue is a bounded FIFO of sample chunks, the output
callback is a function from the previous hardware buffer contents and the
engine state to the written buffer and the next state, and the WAV codec
produces the explicit container byte sequence.

Wall-clock time is abstracted as the count of monotonic-clock samples taken
by the decoder (the Rust code samples `t0.elapsed()` once per delta-carrying
line), which preserves ordering facts while keeping everything executable.
-/

namespace LiquidAudio

/-! ## Bytes and byte-string helpers -/

/-- ASCII whitespace test, mirroring the whitespace trimmed by `str::trim`
on the protocol's ASCII framing (space, tab, LF, CR). -/
def wsByte (b : Nat) : Bool := b = 32 || b = 9 || b = 10 || b = 13

/-- Drop leading ASCII whitespace. -/
def trimLeft : List Nat → List Nat
  | [] => []
  | b :: r => if wsByte b then trimLeft r else b :: r

/-- `str::trim` on a byte string: drop whitespace from both ends. -/
def trimAscii (l : List Nat) : List Nat :=
  (trimLeft (trimLeft l.reverse).reverse)

/-- `str::strip_prefix`: `some` of the remainder when `tag` leads `l`. -/
def dropTag : List Nat → List Nat → Option (List Nat)
  | [], l => some l
  | _ :: _, [] => none
  | t :: ts, b :: bs => if t = b then dropTag ts bs else none

/-- The `"data: "` field marker of the wire format. -/
def dataTag : List Nat := [100, 97, 116, 97, 58, 32]

/-- The `"[DONE]"` end-of-stream sentinel. -/
def doneBytes : List Nat := [91, 68, 79, 78, 69, 93]

/-- The `"stop"` finish indicator. -/
def stopBytes : List Nat := [115, 116, 111, 112]

/-- UTF-8 bytes of the musical-note placeholder written by the decoder. -/
def noteBytes : List Nat := [226, 153, 170]

/-- Split a byte buffer at the first newline: `some (line, rest)` where the
newline itself is consumed, mirroring `buffer.find('\n')` followed by the
two slices `buffer[..i]` and `buffer[i+1..]`. -/
def splitFirstLine : List Nat → Option (List Nat × List Nat)
  | [] => none
  | b :: rest =>
    if b = 10 then some ([], rest)
    else
      match splitFirstLine rest with
      | none => none
      | some (l, r) => some (b :: l, r)

/-- A byte string with no newline byte (a partial line). -/
def noNL (l : List Nat) : Bool := l.all (fun b => b ≠ 10)

/-- Newline-terminate every line and concatenate. -/
def joinLines (ls : List (List Nat)) : List Nat :=
  (ls.map (fun l => l ++ [10])).flatten

/-! ### UTF-8 validity

`process_stream` converts every network chunk with `std::str::from_utf8`
and silently drops the chunk when the conversion fails.  This is the
standard UTF-8 well-formedness check. -/

/-- UTF-8 continuation byte. -/
def isCont (b : Nat) : Bool := 128 ≤ b && b ≤ 191

/-- Validity of a byte sequence as UTF-8 (the check behind
`std::str::from_utf8`). -/
def utf8Valid : List Nat → Bool
  | [] => true
  | b :: r =>
    if b ≤ 127 then utf8Valid r
    else if 194 ≤ b && b ≤ 223 then
      match r with
      | c :: r2 => isCont c && utf8Valid r2
      | [] => false
    else if b = 224 then
      match r with
      | c1 :: c2 :: r2 => (160 ≤ c1 && c1 ≤ 191) && isCont c2 && utf8Valid r2
      | _ => false
    else if (225 ≤ b && b ≤ 236) || b = 238 || b = 239 then
      match r with
      | c1 :: c2 :: r2 => isCont c1 && isCont c2 && utf8Valid r2
      | _ => false
    else if b = 237 then
      match r with
      | c1 :: c2 :: r2 => (128 ≤ c1 && c1 ≤ 159) && isCont c2 && utf8Valid r2
      | _ => false
    else if b = 240 then
      match r with
      | c1 :: c2 :: c3 :: r2 =>
        (144 ≤ c1 && c1 ≤ 191) && isCont c2 && isCont c3 && utf8Valid r2
      | _ => false
    else if 241 ≤ b && b ≤ 243 then
      match r with
      | c1 :: c2 :: c3 :: r2 => isCont c1 && isCont c2 && isCont c3 && utf8Valid r2
      | _ => false
    else if b = 244 then
      match r with
      | c1 :: c2 :: c3 :: r2 =>
        (128 ≤ c1 && c1 ≤ 143) && isCont c2 && isCont c3 && utf8Valid r2
      | _ => false
    else false

/-! ### Base64

Modelled from the spec: the decoder base64-decodes the audio field with the
external `base64` crate's STANDARD engine (RFC 4648 alphabet, mandatory
padding, canonical trailing bits); a decode error is turned into the empty
byte sequence by `unwrap_or_default`. -/

/-- Value of one base64 alphabet character. -/
def b64val (c : Nat) : Option Nat :=
  if 65 ≤ c && c ≤ 90 then some (c - 65)
  else if 97 ≤ c && c ≤ 122 then some (c - 97 + 26)
  else if 48 ≤ c && c ≤ 57 then some (c - 48 + 52)
  else if c = 43 then some 62
  else if c = 47 then some 63
  else none

/-- Strict base64 decode in blocks of four characters. -/
def b64blocks : List Nat → Option (List Nat)
  | [] => some []
  | c1 :: c2 :: c3 :: c4 :: rest =>
    match b64val c1, b64val c2 with
    | some v1, some v2 =>
      if c3 = 61 then
        if c4 = 61 && rest.isEmpty && v2 % 16 = 0 then
          some [v1 * 4 + v2 / 16]
        else none
      else
        match b64val c3 with
        | some v3 =>
          if c4 = 61 then
            if rest.isEmpty && v3 % 4 = 0 then
              some [v1 * 4 + v2 / 16, v2 % 16 * 16 + v3 / 4]
            else none
          else
            match b64val c4 with
            | some v4 =>
              match b64blocks rest with
              | some bs =>
                some ([v1 * 4 + v2 / 16, v2 % 16 * 16 + v3 / 4, v3 % 4 * 64 + v4] ++ bs)
              | none => none
            | none => none
        | none => none
    | _, _ => none
  | _ => none

/-- `B64.decode(..).unwrap_or_default()`: decode errors become `[]`. -/
def b64decode (s : List Nat) : List Nat := (b64blocks s).getD []

/-- `chunks_exact(4)` + `f32::from_le_bytes`: group the decoded bytes in
fours, interpreting each group as the little-endian 32-bit word that is the
bit pattern of one `f32` sample; the trailing remainder is discarded. -/
def leWords : List Nat → List Nat
  | c0 :: c1 :: c2 :: c3 :: rest =>
    (c0 + 256 * c1 + 65536 * c2 + 16777216 * c3) :: leWords rest
  | _ => []

/-! ## Wire records (`src/api.rs`, the `Deserialize` structs)

Strings are byte lists; `Option` fields mirror the Rust `Option` fields. -/

/-- `AudioChunk { data: String }`. -/
structure AudioChunk where
  data : List Nat
deriving DecidableEq

/-- `StreamDelta { content: Option<String>, audio_chunk: Option<AudioChunk> }`. -/
structure StreamDelta where
  content : Option (List Nat)
  audio_chunk : Option AudioChunk
deriving DecidableEq

/-- `StreamChoice { delta: Option<StreamDelta>, finish_reason: Option<String> }`. -/
structure StreamChoice where
  delta : Option StreamDelta
  finish_reason : Option (List Nat)
deriving DecidableEq

/-- `StreamChunk { choices: Option<Vec<StreamChoice>> }`. -/
structure StreamChunk where
  choices : Option (List StreamChoice)
deriving DecidableEq

/-- `StreamStats` (`src/api.rs`).  Times are abstract clock samples: the
monotonic clock is modelled by the number of `t0.elapsed()` calls made so
far, which keeps every derived quantity executable. -/
structure StreamStats where
  ttft_secs : Option Nat
  total_secs : Nat
  text_chunk_count : Nat
  text_duration_secs : Nat
  total_audio_samples : Nat
  audio_duration_secs : Nat
  completed : Bool
deriving DecidableEq

/-! ## The decoder state machine (`process_stream`) -/

/-- One callback invocation made by the decoder: `on_text` with a byte
string, or `on_audio` with a list of 32-bit sample words. -/
inductive Ev where
  | text (s : List Nat)
  | audio (samples : List Nat)
deriving DecidableEq

/-- `true` exactly on `on_audio` events. -/
def Ev.isAudio : Ev → Bool
  | .audio _ => true
  | _ => false

/-- The mutable locals of `process_stream`'s loop, minus the byte buffer:
`clock` counts the `t0.elapsed()` samples taken so far, `events` is the
trace of callback invocations. -/
structure Core where
  clock : Nat
  ttft : Option Nat
  text_chunks : List (Nat × List Nat)
  audio_chunks : List (Nat × Nat)
  total_samples : Nat
  completed : Bool
  events : List Ev
deriving DecidableEq

/-- Initial decoder state. -/
def initCore : Core :=
  { clock := 0, ttft := none, text_chunks := [], audio_chunks := []
    total_samples := 0, completed := false, events := [] }

/-- The body of the line loop of `process_stream` for one extracted line:
trim, strip the `"data: "` tag (a line without the tag yields the empty
string, as `unwrap_or("")` does), skip the sentinel and empty lines, parse,
consult only the first choice, mark completion on `finish_reason == "stop"`,
otherwise sample the clock once and deliver the text and audio deltas.
`parse` stands for `serde_json::from_str::<StreamChunk>`. -/
def processLine (parse : List Nat → Option StreamChunk) (st : Core)
    (rawLine : List Nat) : Core :=
  let line := trimAscii rawLine
  let data := (dropTag dataTag line).getD []
  if data = doneBytes || data = [] then st
  else
    match parse data with
    | none => st
    | some chunk =>
      match chunk.choices with
      | some (choice :: _) =>
        if choice.finish_reason = some stopBytes then
          { st with completed := true }
        else
          match choice.delta with
          | none => st
          | some delta =>
            let now := st.clock
            let st1 : Core :=
              { st with
                clock := st.clock + 1
                ttft := match st.ttft with
                        | none => some now
                        | some t => some t }
            let st2 : Core :=
              match delta.content with
              | some text =>
                if text ≠ [] then
                  { st1 with
                    text_chunks := st1.text_chunks ++ [(now, text)]
                    events := st1.events ++ [Ev.text text] }
                else st1
              | none => st1
            match delta.audio_chunk with
            | some ac =>
              let decoded := b64decode ac.data
              let samples := leWords decoded
              if samples.length > 0 then
                { st2 with
                  total_samples := st2.total_samples + samples.length
                  audio_chunks := st2.audio_chunks ++ [(now, samples.length)]
                  events := st2.events ++ [Ev.text noteBytes, Ev.audio samples] }
              else st2
            | none => st2
      | _ => st

/-- One fuelled step form of the while-let loop over complete lines in the
buffer: repeatedly split off the first line and process it, stopping (and
leaving the remaining bytes buffered) as soon as a line marks completion.
The fuel only bounds the recursion; `processLines` supplies the buffer
length, which suffices because each extracted line consumes at least the
newline byte. -/
def processLinesF (parse : List Nat → Option StreamChunk) :
    Nat → List Nat → Core → List Nat × Core
  | 0, buf, st => (buf, st)
  | fuel + 1, buf, st =>
    match splitFirstLine buf with
    | none => (buf, st)
    | some (line, rest) =>
      let st2 := processLine parse st line
      if st2.completed then (rest, st2)
      else processLinesF parse fuel rest st2

/-- The while-let loop of `process_stream` over the byte buffer. -/
def processLines (parse : List Nat → Option StreamChunk)
    (buf : List Nat) (st : Core) : List Nat × Core :=
  processLinesF parse buf.length buf st

/-- A network chunk: payload bytes or a transport error. -/
inductive NetChunk where
  | ok (bytes : List Nat)
  | err
deriving DecidableEq

/-- The outer `while let Some(chunk) = stream.next().await` loop: a transport
error aborts; a chunk that is not valid UTF-8 is silently dropped
(`if let Ok(s) = std::str::from_utf8(&chunk)`); otherwise the bytes are
appended to the buffer, the complete lines are processed and the loop
stops once completion was marked. -/
def runStream (parse : List Nat → Option StreamChunk) :
    List NetChunk → List Nat → Core → Option (List Nat × Core)
  | [], buf, st => some (buf, st)
  | NetChunk.err :: _, _, _ => none
  | NetChunk.ok bytes :: rest, buf, st =>
    let bytes' := if utf8Valid bytes then bytes else []
    let (buf2, st2) := processLines parse (buf ++ bytes') st
    if st2.completed then some (buf2, st2)
    else runStream parse rest buf2 st2

/-- Assemble the function result from the final loop state: the
concatenated text, the derived `StreamStats`, and the callback trace. -/
def mkResult (st : Core) : List Nat × StreamStats × List Ev :=
  let full_text := (st.text_chunks.map (fun p => p.2)).flatten
  let text_duration :=
    if st.text_chunks.length > 1 then
      ((st.text_chunks.getLast?).map (fun p => p.1)).getD 0
        - ((st.text_chunks.head?).map (fun p => p.1)).getD 0
    else 0
  let audio_duration :=
    if st.audio_chunks.isEmpty then 0
    else
      ((st.audio_chunks.getLast?).map (fun p => p.1)).getD 0
        - ((st.audio_chunks.head?).map (fun p => p.1)).getD 0
  (full_text,
   { ttft_secs := st.ttft
     total_secs := st.clock
     text_chunk_count := st.text_chunks.length
     text_duration_secs := text_duration
     total_audio_samples := st.total_samples
     audio_duration_secs := audio_duration
     completed := st.completed },
   st.events)

/-- `process_stream` (`src/api.rs`): run the chunk loop from the empty
buffer and initial state; `none` models the `Err` return on a transport
error. -/
def process_stream (parse : List Nat → Option StreamChunk)
    (chunks : List NetChunk) : Option (List Nat × StreamStats × List Ev) :=
  match runStream parse chunks [] initCore with
  | none => none
  | some (_, st) => some (mkResult st)

/-! ## Pure per-line classifiers

These restate the guards of `processLine` as standalone predicates; the
simulation lemmas below prove that `processLine` behaves according to
them. -/

/-- The data part of a line: trimmed, with the `"data: "` tag stripped
(empty when the tag is absent, as in the source). -/
def lineData (l : List Nat) : List Nat :=
  (dropTag dataTag (trimAscii l)).getD []

/-- The line is skipped before parsing: sentinel or empty data. -/
def lineSkipped (l : List Nat) : Bool :=
  lineData l = doneBytes || lineData l = []

/-- The line marks completion: parses, has a first choice, and that
choice's finish indicator is the literal `"stop"`. -/
def lineStops (parse : List Nat → Option StreamChunk) (l : List Nat) : Bool :=
  if lineSkipped l then false
  else
    match parse (lineData l) with
    | none => false
    | some chunk =>
      match chunk.choices with
      | some (choice :: _) => choice.finish_reason = some stopBytes
      | _ => false

/-- The line carries a delta object (and is not a stop line): the clock is
sampled on exactly these lines. -/
def lineHasDelta (parse : List Nat → Option StreamChunk) (l : List Nat) : Bool :=
  if lineSkipped l then false
  else
    match parse (lineData l) with
    | none => false
    | some chunk =>
      match chunk.choices with
      | some (choice :: _) =>
        choice.finish_reason ≠ some stopBytes && choice.delta.isSome
      | _ => false

/-- The line delivers a text delta: non-empty `content` on its delta. -/
def lineTextEvent (parse : List Nat → Option StreamChunk) (l : List Nat) : Bool :=
  if lineSkipped l then false
  else
    match parse (lineData l) with
    | none => false
    | some chunk =>
      match chunk.choices with
      | some (choice :: _) =>
        if choice.finish_reason = some stopBytes then false
        else
          match choice.delta with
          | some delta =>
            match delta.content with
            | some text => text ≠ []
            | none => false
          | none => false
      | _ => false

/-- The line delivers an audio delta: an `audio_chunk` whose base64 payload
decodes to at least one whole 4-byte sample. -/
def lineAudioEvent (parse : List Nat → Option StreamChunk) (l : List Nat) : Bool :=
  if lineSkipped l then false
  else
    match parse (lineData l) with
    | none => false
    | some chunk =>
      match chunk.choices with
      | some (choice :: _) =>
        if choice.finish_reason = some stopBytes then false
        else
          match choice.delta with
          | some delta =>
            match delta.audio_chunk with
            | some ac => (leWords (b64decode ac.data)).length > 0
            | none => false
          | none => false
      | _ => false

/-! ## A concrete JSON parser for the wire format

Modelled from the spec: `serde_json::from_str::<StreamChunk>` is an external
library call; this parser follows the documented wire format — each data
line is a JSON object `\x7bchoices:[\x7bdelta:\x7bcontent?,
audio_chunk?:\x7bdata: base64\x7d\x7d, finish_reason?\x7d]\x7d` — with
unknown fields ignored and `Option` fields accepting both absence and
`null`.  The structural theorems below quantify over every parse function;
this concrete one is used for witnesses and counterexamples. -/

/-- JSON values over byte strings; numbers keep their raw token. -/
inductive Json where
  | null
  | bool (b : Bool)
  | num (tok : List Nat)
  | str (s : List Nat)
  | arr (xs : List Json)
  | obj (fields : List (List Nat × Json))

/-- Skip JSON whitespace. -/
def skipWs : List Nat → List Nat
  | [] => []
  | b :: r => if wsByte b then skipWs r else b :: r

/-- One-character string escapes of JSON (`\u` escapes are rejected). -/
def unescape (c : Nat) : Option Nat :=
  if c = 34 then some 34
  else if c = 92 then some 92
  else if c = 47 then some 47
  else if c = 110 then some 10
  else if c = 116 then some 9
  else if c = 114 then some 13
  else if c = 98 then some 8
  else if c = 102 then some 12
  else none

/-- String body after the opening quote; returns the content and the rest
after the closing quote. -/
def strBody (fuel : Nat) : List Nat → Option (List Nat × List Nat) :=
  match fuel with
  | 0 => fun _ => none
  | fuel + 1 => fun s =>
    match s with
    | [] => none
    | b :: r =>
      if b = 34 then some ([], r)
      else if b = 92 then
        match r with
        | c :: r2 =>
          match unescape c with
          | some u => (strBody fuel r2).map (fun p => (u :: p.1, p.2))
          | none => none
        | [] => none
      else (strBody fuel r).map (fun p => (b :: p.1, p.2))

/-- ASCII digit test. -/
def isDigit (b : Nat) : Bool := 48 ≤ b && b ≤ 57

/-- Longest digit run. -/
def takeDigits : List Nat → List Nat × List Nat
  | [] => ([], [])
  | b :: r =>
    if isDigit b then
      let p := takeDigits r
      (b :: p.1, p.2)
    else ([], b :: r)

/-- JSON number token (sign, integer part, fraction, exponent). -/
def numTok (s : List Nat) : Option (List Nat × List Nat) :=
  let (neg, s1) := match s with
                   | 45 :: r => ([45], r)
                   | _ => ([], s)
  let (ds, s2) := takeDigits s1
  if ds = [] then none
  else
    let (frac, s3) := match s2 with
                      | 46 :: r =>
                        let p := takeDigits r
                        if p.1 = [] then ([46], r) else (46 :: p.1, p.2)
                      | _ => ([], s2)
    let (ex, s4) := match s3 with
                    | e :: r =>
                      if e = 101 || e = 69 then
                        let (sg, r2) := match r with
                                        | 43 :: r3 => ([43], r3)
                                        | 45 :: r3 => ([45], r3)
                                        | _ => ([], r)
                        let p := takeDigits r2
                        if p.1 = [] then ([], e :: r) else (e :: sg ++ p.1, p.2)
                      else ([], e :: r)
                    | [] => ([], [])
    some (neg ++ ds ++ frac ++ ex, s4)

/-- Match a literal byte sequence. -/
def expectBytes : List Nat → List Nat → Option (List Nat)
  | [], s => some s
  | _ :: _, [] => none
  | t :: ts, b :: bs => if t = b then expectBytes ts bs else none

mutual

/-- Parse one JSON value; returns the value and the unconsumed rest. -/
def parseVal (fuel : Nat) (s : List Nat) : Option (Json × List Nat) :=
  match fuel with
  | 0 => none
  | fuel + 1 =>
    match skipWs s with
    | [] => none
    | b :: r =>
      if b = 34 then (strBody fuel r).map (fun p => (Json.str p.1, p.2))
      else if b = 123 then parseObjFields fuel (skipWs r) true
      else if b = 91 then parseArrItems fuel (skipWs r) true
      else if b = 116 then (expectBytes [114, 117, 101] r).map (fun r2 => (Json.bool true, r2))
      else if b = 102 then (expectBytes [97, 108, 115, 101] r).map (fun r2 => (Json.bool false, r2))
      else if b = 110 then (expectBytes [117, 108, 108] r).map (fun r2 => (Json.null, r2))
      else (numTok (b :: r)).map (fun p => (Json.num p.1, p.2))

/-- Parse the fields of an object after the opening brace (`first` marks
the position before the first field). -/
def parseObjFields (fuel : Nat) (s : List Nat) (first : Bool) :
    Option (Json × List Nat) :=
  match fuel with
  | 0 => none
  | fuel + 1 =>
    match s with
    | 125 :: r => if first then some (Json.obj [], r) else none
    | _ =>
      match s with
      | 34 :: r =>
        match strBody fuel r with
        | some (key, r2) =>
          match skipWs r2 with
          | 58 :: r3 =>
            match parseVal fuel r3 with
            | some (v, r4) =>
              match skipWs r4 with
              | 44 :: r5 =>
                match parseObjFields fuel (skipWs r5) false with
                | some (Json.obj fs, r6) => some (Json.obj ((key, v) :: fs), r6)
                | _ => none
              | 125 :: r5 => some (Json.obj [(key, v)], r5)
              | _ => none
            | none => none
          | _ => none
        | none => none
      | _ => none

/-- Parse the items of an array after the opening bracket. -/
def parseArrItems (fuel : Nat) (s : List Nat) (first : Bool) :
    Option (Json × List Nat) :=
  match fuel with
  | 0 => none
  | fuel + 1 =>
    match s with
    | 93 :: r => if first then some (Json.arr [], r) else none
    | _ =>
      match parseVal fuel s with
      | some (v, r) =>
        match skipWs r with
        | 44 :: r2 =>
          match parseArrItems fuel (skipWs r2) false with
          | some (Json.arr xs, r3) => some (Json.arr (v :: xs), r3)
          | _ => none
        | 93 :: r2 => some (Json.arr [v], r2)
        | _ => none
      | none => none

end

/-- First field of the given name, if any. -/
def getField (fs : List (List Nat × Json)) (k : List Nat) : Option Json :=
  (fs.find? (fun p => p.1 = k)).map (fun p => p.2)

/-- An `Option` field in the serde sense: absent or `null` is `none`; a
present value must deserialize. -/
def optField (fs : List (List Nat × Json)) (k : List Nat)
    (de : Json → Option α) : Option (Option α) :=
  match getField fs k with
  | none => some none
  | some Json.null => some none
  | some j => (de j).map some

/-- Deserialize a JSON string. -/
def deStr : Json → Option (List Nat)
  | Json.str s => some s
  | _ => none

/-- Deserialize `AudioChunk` (required `data` field). -/
def deAudioChunk : Json → Option AudioChunk
  | Json.obj fs =>
    match getField fs [100, 97, 116, 97] with
    | some (Json.str s) => some ⟨s⟩
    | _ => none
  | _ => none

/-- Deserialize `StreamDelta`. -/
def deDelta : Json → Option StreamDelta
  | Json.obj fs => do
    let c ← optField fs [99, 111, 110, 116, 101, 110, 116] deStr
    let a ← optField fs [97, 117, 100, 105, 111, 95, 99, 104, 117, 110, 107] deAudioChunk
    pure ⟨c, a⟩
  | _ => none

/-- Deserialize `StreamChoice`. -/
def deChoice : Json → Option StreamChoice
  | Json.obj fs => do
    let d ← optField fs [100, 101, 108, 116, 97] deDelta
    let f ← optField fs [102, 105, 110, 105, 115, 104, 95, 114, 101, 97, 115, 111, 110] deStr
    pure ⟨d, f⟩
  | _ => none

/-- Deserialize `StreamChunk`. -/
def deChunk : Json → Option StreamChunk
  | Json.obj fs => do
    let cs ← optField fs [99, 104, 111, 105, 99, 101, 115]
      (fun j => match j with
                | Json.arr xs => xs.mapM deChoice
                | _ => none)
    pure ⟨cs⟩
  | _ => none

/-- The concrete line parser: full JSON value, nothing but whitespace
after it, deserialized into the record shape. -/
def parseSpec (s : List Nat) : Option StreamChunk :=
  match parseVal (2 * s.length + 4) s with
  | some (j, rest) => if skipWs rest = [] then deChunk j else none
  | none => none

mutual

/-- Serialize a JSON value (used to build concrete wire lines). -/
def jsonBytes : Json → List Nat
  | Json.null => [110, 117, 108, 108]
  | Json.bool true => [116, 114, 117, 101]
  | Json.bool false => [102, 97, 108, 115, 101]
  | Json.num tok => tok
  | Json.str s => 34 :: s ++ [34]
  | Json.arr xs => 91 :: jsonArrBytes xs ++ [93]
  | Json.obj fs => 123 :: jsonObjBytes fs ++ [125]

/-- Serialize array items, comma separated. -/
def jsonArrBytes : List Json → List Nat
  | [] => []
  | [x] => jsonBytes x
  | x :: xs => jsonBytes x ++ [44] ++ jsonArrBytes xs

/-- Serialize object fields, comma separated. -/
def jsonObjBytes : List (List Nat × Json) → List Nat
  | [] => []
  | [(k, v)] => 34 :: k ++ [34, 58] ++ jsonBytes v
  | (k, v) :: fs => 34 :: k ++ [34, 58] ++ jsonBytes v ++ [44] ++ jsonObjBytes fs

end

/-! ## Playback engine (`src/audio.rs`)

Sample values are rationals (the `f32` arithmetic in the callback is pure
copying and zero-filling, so the carrier type is irrelevant).  The bounded
crossbeam channel is a FIFO list of chunks with its capacity checked on
send; the hardware callback is a pure function from the engine state and
the previous contents of the hardware buffer to the written buffer and the
next state. -/

/-- `QUEUE_CAPACITY` (`src/audio.rs`). -/
def QUEUE_CAPACITY : Nat := 64

/-- `Sender::try_send` on the bounded channel: enqueue at the back when
below capacity, otherwise drop the message. -/
def try_send (q : List (List ℚ)) (c : List ℚ) : List (List ℚ) :=
  if q.length < QUEUE_CAPACITY then q ++ [c] else q

/-- `PlaybackHandle::add_samples`: skip empty chunks, then `try_send`
with the result ignored. -/
def add_samples (q : List (List ℚ)) (samples : List ℚ) : List (List ℚ) :=
  if samples.isEmpty then q else try_send q samples

/-- State carried by the output callback across invocations: the
`RefCell<Option<(Vec<f32>, usize)>>` leftover and the receiving end of the
channel. -/
structure PlayState where
  leftover : Option (List ℚ × Nat)
  queue : List (List ℚ)
deriving DecidableEq

/-- The `while written < data.len()` loop: pop chunks, copy what fits,
carry a partially-consumed chunk (the part already copied drained off,
offset reset to zero) into the leftover and stop; an empty channel stops
the loop.  Returns the bytes written by the loop, the final `written`,
the leftover variable and the remaining queue. -/
def drainQueue (n : Nat) : Nat → Option (List ℚ × Nat) → List (List ℚ) →
    List ℚ × Nat × Option (List ℚ × Nat) × List (List ℚ)
  | written, left, q =>
    if written < n then
      match q with
      | [] => ([], written, left, [])
      | chunk :: rest =>
        let need := n - written
        let take := min need chunk.length
        if take < chunk.length then
          (chunk.take take, written + take, some (chunk.drop take, 0), rest)
        else
          let r := drainQueue n (written + take) left rest
          (chunk.take take ++ r.1, r.2.1, r.2.2.1, r.2.2.2)
    else ([], written, left, q)

/-- The leftover-drain block at the head of the callback: returns the
samples copied from the carried chunk, the resulting `written` count, and
the updated leftover (cleared exactly when the chunk is exhausted). -/
def leftDrain (n : Nat) : Option (List ℚ × Nat) → List ℚ × Nat × Option (List ℚ × Nat)
  | none => ([], 0, none)
  | some (v, off) =>
    ((v.drop off).take (min n (v.length - off)),
     min n (v.length - off),
     if v.length ≤ off + min n (v.length - off) then none
     else some (v, off + min n (v.length - off)))

/-- The number of samples written by one callback invocation on a buffer
of size `n` (leftover drain plus queue drain). -/
def playWritten (s : PlayState) (n : Nat) : Nat :=
  (drainQueue n (leftDrain n s.leftover).2.1 (leftDrain n s.leftover).2.2 s.queue).2.1

/-- The cpal output callback (`AudioPlayer::new`): `prev` is the previous
contents of the hardware buffer (cpal hands the callback an uninitialised
`&mut [f32]`); the callback drains the leftover, then the queue, then
zero-fills the unwritten tail.  Returns the buffer contents after the
callback and the state for the next invocation. -/
def outputCallback (s : PlayState) (prev : List ℚ) : List ℚ × PlayState :=
  let n := prev.length
  let d := leftDrain n s.leftover
  let r := drainQueue n d.2.1 d.2.2 s.queue
  let written := r.2.1
  let raw := d.1 ++ r.1 ++ prev.drop written
  let out := if written < n then raw.take written ++ List.replicate (n - written) 0
             else raw
  (out, ⟨r.2.2.1, r.2.2.2⟩)

/-! ## WAV codec (`samples_to_wav_bytes`)

The float-to-integer map follows the source: clamp to `[-1, 1]`, scale by
`32767`, truncate toward zero (`as i16`).  Samples are rationals, which
makes the clamp/scale/truncate pipeline exact.  The container layout is
modelled from the spec: the external `hound` writer emits the canonical
44-byte RIFF/WAVE header for 16-bit integer PCM followed by the
little-endian sample words. -/

/-- `f32::clamp(-1.0, 1.0)`. -/
def clampUnit (x : ℚ) : ℚ := if x < -1 then -1 else if x > 1 then 1 else x

/-- Truncation toward zero (the `as i16` cast, in range after clamping). -/
def truncQ (x : ℚ) : Int := if 0 ≤ x then ⌊x⌋ else -⌊-x⌋

/-- One sample through the encoder: clamp, scale by 32767, truncate. -/
def sampleToI16 (s : ℚ) : Int := truncQ (clampUnit s * 32767)

/-- Two's-complement little-endian bytes of an `i16`. -/
def i16le (i : Int) : List Nat :=
  let u := (i % 65536).toNat
  [u % 256, u / 256]

/-- Little-endian bytes of a `u16`. -/
def u16le (x : Nat) : List Nat := [x % 256, x / 256 % 256]

/-- Little-endian bytes of a `u32`. -/
def u32le (x : Nat) : List Nat :=
  [x % 256, x / 256 % 256, x / 65536 % 256, x / 16777216 % 256]

/-- The canonical PCM WAV header for mono 16-bit data of `count` samples. -/
def wavHeader (rate count : Nat) : List Nat :=
  [82, 73, 70, 70] ++ u32le (36 + 2 * count) ++ [87, 65, 86, 69]
    ++ [102, 109, 116, 32] ++ u32le 16 ++ u16le 1 ++ u16le 1
    ++ u32le rate ++ u32le (rate * 2) ++ u16le 2 ++ u16le 16
    ++ [100, 97, 116, 97] ++ u32le (2 * count)

/-- `samples_to_wav_bytes` (`src/audio.rs`): encode each sample and wrap
in the container (the in-memory cursor writer cannot fail). -/
def samples_to_wav_bytes (samples : List ℚ) (sample_rate : Nat) : List Nat :=
  wavHeader sample_rate samples.length
    ++ (samples.map (fun s => i16le (sampleToI16 s))).flatten

/-- Well-formedness of the leftover carry: a carried chunk always has its
offset strictly inside the chunk. -/
def leftWF : Option (List ℚ × Nat) → Prop
  | none => True
  | some (v, off) => off < v.length

/-- Read a 16-bit little-endian field at offset `i`. -/
def readU16 (bs : List Nat) (i : Nat) : Nat :=
  bs.getD i 0 + 256 * bs.getD (i + 1) 0

/-- Read a 32-bit little-endian field at offset `i`. -/
def readU32 (bs : List Nat) (i : Nat) : Nat :=
  bs.getD i 0 + 256 * bs.getD (i + 1) 0 + 65536 * bs.getD (i + 2) 0
    + 16777216 * bs.getD (i + 3) 0

/-- Channel count read back from an encoded container. -/
def wavChannels (bs : List Nat) : Nat := readU16 bs 22

/-- Sample rate read back from an encoded container. -/
def wavRate (bs : List Nat) : Nat := readU32 bs 24

/-- Sample count read back from an encoded container (data bytes over
block align). -/
def wavCount (bs : List Nat) : Nat := readU32 bs 40 / 2

/-! ## Line-level view of the decoder loop

`foldLines` runs the per-line state machine over an already-split list of
lines, stopping as soon as a line marks completion — the lemmas below show
that `processLines` on a newline-joined byte string behaves exactly like
it, and that buffering across arbitrary chunk boundaries does not change
the outcome. -/

/-- Run `processLine` over a list of lines with the early stop of the
inner loop. -/
def foldLines (parse : List Nat → Option StreamChunk) :
    List (List Nat) → Core → Core
  | [], st => st
  | l :: ls, st =>
    let st2 := processLine parse st l
    if st2.completed then st2 else foldLines parse ls st2

/-! ## Concrete wire lines

Concrete protocol lines used by witnesses and counterexamples, built by
serializing explicit JSON values. -/

/-- A text-delta record carrying the content `Hi`. -/
def hiJson : Json :=
  Json.obj [([99, 104, 111, 105, 99, 101, 115], Json.arr
    [Json.obj [([100, 101, 108, 116, 97], Json.obj
      [([99, 111, 110, 116, 101, 110, 116], Json.str [72, 105])])]])]

/-- A finish record with indicator `stop` and an empty delta. -/
def stopJson : Json :=
  Json.obj [([99, 104, 111, 105, 99, 101, 115], Json.arr
    [Json.obj [([100, 101, 108, 116, 97], Json.obj []),
               ([102, 105, 110, 105, 115, 104, 95, 114, 101, 97, 115, 111, 110], Json.str [115, 116, 111, 112])]])]

/-- A record whose delta object is empty: neither text nor audio. -/
def emptyDeltaJson : Json :=
  Json.obj [([99, 104, 111, 105, 99, 101, 115], Json.arr
    [Json.obj [([100, 101, 108, 116, 97], Json.obj [])]])]

/-- An audio-delta record whose base64 payload decodes to five bytes. -/
def audioJson : Json :=
  Json.obj [([99, 104, 111, 105, 99, 101, 115], Json.arr
    [Json.obj [([100, 101, 108, 116, 97], Json.obj
      [([97, 117, 100, 105, 111, 95, 99, 104, 117, 110, 107], Json.obj
        [([100, 97, 116, 97], Json.str [65, 65, 65, 65, 65, 65, 65, 61])])])]])]

/-- A text-delta record whose content is the two-byte UTF-8 character
U+00E9. -/
def accentJson : Json :=
  Json.obj [([99, 104, 111, 105, 99, 101, 115], Json.arr
    [Json.obj [([100, 101, 108, 116, 97], Json.obj
      [([99, 111, 110, 116, 101, 110, 116], Json.str [195, 169])])]])]

/-- `data: `-tagged serialized lines. -/
def lineHi : List Nat := dataTag ++ jsonBytes hiJson

/-- The stop line. -/
def lineStop : List Nat := dataTag ++ jsonBytes stopJson

/-- The tagged end-of-stream sentinel line. -/
def lineDone : List Nat := dataTag ++ doneBytes

/-- The tagged empty-delta line. -/
def lineEmptyDelta : List Nat := dataTag ++ jsonBytes emptyDeltaJson

/-- The tagged audio line. -/
def lineAudio : List Nat := dataTag ++ jsonBytes audioJson

/-- The tagged accented-text line. -/
def lineAccent : List Nat := dataTag ++ jsonBytes accentJson

/-- A structurally malformed line: `data: ` followed by an unclosed brace
and the words `not json`. -/
def lineBad : List Nat := dataTag ++ [123] ++ [110, 111, 116, 32, 106, 115, 111, 110]

/-- Auxiliary: the remainder returned by `splitFirstLine` is shorter. -/
theorem splitFirstLine_rest_lt :
    ∀ buf l r, splitFirstLine buf = some (l, r) → r.length < buf.length := by
  intro buf
  induction buf with
  | nil => intro l r h; simp [splitFirstLine] at h
  | cons b rest ih =>
    intro l r h
    by_cases hb : b = 10
    · simp [splitFirstLine, hb] at h
      rw [← h.2]
      simp [List.length_cons]
    · simp only [splitFirstLine, hb, if_false] at h
      cases hs : splitFirstLine rest with
      | none => rw [hs] at h; simp at h
      | some p =>
        rw [hs] at h
        obtain ⟨l2, r2⟩ := p
        simp at h
        have := ih l2 r2 hs
        simp [← h.2, List.length_cons]
        omega

/-- A newline-free byte string has no line split. -/
theorem splitFirstLine_eq_none (a : List Nat) (h : noNL a = true) :
    splitFirstLine a = none := by
  induction a with
  | nil => rfl
  | cons b r ih =>
    simp only [noNL, List.all_cons, Bool.and_eq_true] at h
    have hr : splitFirstLine r = none := ih h.2
    have hb : b ≠ 10 := by simpa using h.1
    simp [splitFirstLine, hb, hr]

/-- Splitting a buffer that starts with a complete newline-free line. -/
theorem splitFirstLine_line (a b : List Nat) (h : noNL a = true) :
    splitFirstLine (a ++ 10 :: b) = some (a, b) := by
  induction a with
  | nil => simp [splitFirstLine]
  | cons x r ih =>
    simp only [noNL, List.all_cons, Bool.and_eq_true] at h
    have hr := ih h.2
    have hx : x ≠ 10 := by simpa using h.1
    simp [splitFirstLine, hx, hr]

/-- Splitting distributes over append. -/
theorem splitFirstLine_append (a b : List Nat) :
    splitFirstLine (a ++ b)
      = match splitFirstLine a with
        | some (l, r) => some (l, r ++ b)
        | none =>
          match splitFirstLine b with
          | some (l, r) => some (a ++ l, r)
          | none => none := by
  induction a with
  | nil =>
    cases hb : splitFirstLine b with
    | none => simp [splitFirstLine, hb]
    | some p => obtain ⟨l2, r2⟩ := p; simp [splitFirstLine, hb]
  | cons x r ih =>
    by_cases hx : x = 10
    · simp [splitFirstLine, hx]
    · simp only [List.cons_append, splitFirstLine, hx, if_false]
      cases hr : splitFirstLine r with
      | none =>
        rw [hr] at ih
        cases hb : splitFirstLine b with
        | none =>
          rw [hb] at ih
          simp only [] at ih
          simp [ih]
        | some p =>
          obtain ⟨l2, r2⟩ := p
          rw [hb] at ih
          simp only [] at ih
          simp [ih]
      | some p =>
        obtain ⟨l2, r2⟩ := p
        rw [hr] at ih
        simp only [] at ih
        simp [ih]

/-- Any fuel at least the buffer length gives the same run of the line
loop. -/
theorem processLinesF_congr (parse : List Nat → Option StreamChunk) :
    ∀ f1 f2 buf st, buf.length ≤ f1 → buf.length ≤ f2 →
    processLinesF parse f1 buf st = processLinesF parse f2 buf st := by
  intro f1
  induction f1 with
  | zero =>
    intro f2 buf st h1 _
    have hbuf : buf = [] := List.length_eq_zero.mp (Nat.le_zero.mp h1)
    subst hbuf
    cases f2 with
    | zero => rfl
    | succ f2 => rfl
  | succ f1 ih =>
    intro f2 buf st h1 h2
    cases f2 with
    | zero =>
      have hbuf : buf = [] := List.length_eq_zero.mp (Nat.le_zero.mp h2)
      subst hbuf
      rfl
    | succ f2 =>
      simp only [processLinesF]
      cases hs : splitFirstLine buf with
      | none => rfl
      | some p =>
        obtain ⟨line, rest⟩ := p
        have hlt := splitFirstLine_rest_lt buf line rest hs
        dsimp only
        by_cases hc : (processLine parse st line).completed
        · simp [hc]
        · simp only [hc, Bool.false_eq_true, if_false]
          exact ih f2 rest (processLine parse st line) (by omega) (by omega)

/-- Unfold `processLines` when the buffer holds no complete line. -/
theorem processLines_none (parse : List Nat → Option StreamChunk)
    (buf : List Nat) (st : Core) (hs : splitFirstLine buf = none) :
    processLines parse buf st = (buf, st) := by
  cases buf with
  | nil => rfl
  | cons b r =>
    simp only [processLines, List.length_cons, processLinesF, hs]

/-- Unfold `processLines` on the first complete line. -/
theorem processLines_some (parse : List Nat → Option StreamChunk)
    (buf l r : List Nat) (st : Core)
    (hs : splitFirstLine buf = some (l, r)) :
    processLines parse buf st
      = (if (processLine parse st l).completed then (r, processLine parse st l)
         else processLines parse r (processLine parse st l)) := by
  cases buf with
  | nil => simp [splitFirstLine] at hs
  | cons b bs =>
    have hlt := splitFirstLine_rest_lt (b :: bs) l r hs
    simp only [processLines, List.length_cons, processLinesF, hs]
    by_cases hc : (processLine parse st l).completed
    · simp [hc]
    · simp only [hc, Bool.false_eq_true, if_false]
      exact processLinesF_congr parse bs.length r.length r (processLine parse st l)
        (by simp [List.length_cons] at hlt; omega) le_rfl

/-- Streaming lemma: appending further bytes to the buffer commutes with
processing — the lines completed so far are processed identically and the
new bytes only extend the remainder.  This is the heart of
chunk-boundary independence. -/
theorem processLines_append (parse : List Nat → Option StreamChunk) :
    ∀ buf st extra, st.completed = false →
    processLines parse (buf ++ extra) st
      = (if (processLines parse buf st).2.completed then
           ((processLines parse buf st).1 ++ extra, (processLines parse buf st).2)
         else processLines parse ((processLines parse buf st).1 ++ extra)
               (processLines parse buf st).2) := by
  suffices h : ∀ n buf st extra, buf.length ≤ n → st.completed = false →
      processLines parse (buf ++ extra) st
        = (if (processLines parse buf st).2.completed then
             ((processLines parse buf st).1 ++ extra, (processLines parse buf st).2)
           else processLines parse ((processLines parse buf st).1 ++ extra)
                 (processLines parse buf st).2) by
    intro buf st extra hst
    exact h buf.length buf st extra le_rfl hst
  intro n
  induction n with
  | zero =>
    intro buf st extra hlen hst
    have hbuf : buf = [] := List.length_eq_zero.mp (Nat.le_zero.mp hlen)
    subst hbuf
    rw [processLines_none parse [] st rfl]
    simp [hst]
  | succ n ih =>
    intro buf st extra hlen hst
    cases hs : splitFirstLine buf with
    | none =>
      rw [processLines_none parse buf st hs]
      simp [hst]
    | some p =>
      obtain ⟨l, r⟩ := p
      have hs2 : splitFirstLine (buf ++ extra) = some (l, r ++ extra) := by
        rw [splitFirstLine_append, hs]
      rw [processLines_some parse buf l r st hs,
          processLines_some parse (buf ++ extra) l (r ++ extra) st hs2]
      by_cases hc : (processLine parse st l).completed
      · simp [hc]
      · simp only [hc, if_false]
        have hlt := splitFirstLine_rest_lt buf l r hs
        exact ih r (processLine parse st l) extra (by omega) (by simpa using hc)

/-- When processing stops without completing, the remaining buffer holds
no complete line. -/
theorem processLines_rest_noline (parse : List Nat → Option StreamChunk) :
    ∀ buf st, (processLines parse buf st).2.completed = false →
    splitFirstLine (processLines parse buf st).1 = none := by
  suffices h : ∀ n buf st, buf.length ≤ n →
      (processLines parse buf st).2.completed = false →
      splitFirstLine (processLines parse buf st).1 = none by
    intro buf st hcf
    exact h buf.length buf st le_rfl hcf
  intro n
  induction n with
  | zero =>
    intro buf st hlen _
    have hbuf : buf = [] := List.length_eq_zero.mp (Nat.le_zero.mp hlen)
    subst hbuf
    rw [processLines_none parse [] st rfl]
    rfl
  | succ n ih =>
    intro buf st hlen hcf
    cases hs : splitFirstLine buf with
    | none => rw [processLines_none parse buf st hs]; exact hs
    | some p =>
      obtain ⟨l, r⟩ := p
      rw [processLines_some parse buf l r st hs] at hcf ⊢
      by_cases hc : (processLine parse st l).completed
      · rw [if_pos hc] at hcf; simp [hc] at hcf
      · rw [if_neg hc] at hcf ⊢
        have hlt := splitFirstLine_rest_lt buf l r hs
        exact ih r (processLine parse st l) (by omega) hcf

/-- Processing a buffer of newline-joined lines plus a remainder is the
line-level fold, provided the fold completes or the remainder holds no
full line. -/
theorem processLines_join (parse : List Nat → Option StreamChunk) :
    ∀ ls st tail, (∀ l ∈ ls, noNL l = true) → st.completed = false →
    ((foldLines parse ls st).completed = true ∨ splitFirstLine tail = none) →
    (processLines parse (joinLines ls ++ tail) st).2 = foldLines parse ls st := by
  intro ls
  induction ls with
  | nil =>
    intro st tail _ hst hd
    cases hd with
    | inl h => simp [foldLines] at h; rw [h] at hst; cases hst
    | inr h =>
      simp only [joinLines, List.map_nil, List.flatten_nil, List.nil_append]
      rw [processLines_none parse tail st h]
      rfl
  | cons l ls ih =>
    intro st tail hnl hst hd
    have hjoin : joinLines (l :: ls) ++ tail = l ++ 10 :: (joinLines ls ++ tail) := by
      simp [joinLines]
    have hs : splitFirstLine (joinLines (l :: ls) ++ tail)
        = some (l, joinLines ls ++ tail) := by
      rw [hjoin]
      exact splitFirstLine_line l _ (hnl l (by simp))
    rw [processLines_some parse _ l _ st hs]
    by_cases hc : (processLine parse st l).completed
    · simp only [hc, if_true]
      simp [foldLines, hc]
    · simp only [hc, if_false]
      have hfold : foldLines parse (l :: ls) st = foldLines parse ls (processLine parse st l) := by
        simp [foldLines, hc]
      rw [hfold]
      exact ih (processLine parse st l) tail (fun x hx => hnl x (by simp [hx]))
        (by simpa using hc) (by rw [hfold] at hd; exact hd)

/-- Chunk-boundary independence at the loop level: feeding any sequence of
valid-UTF-8 chunks is equivalent (up to the internal buffer, which the
function's result discards) to feeding their concatenation at once. -/
theorem runStream_flatten (parse : List Nat → Option StreamChunk) :
    ∀ (cs : List (List Nat)) (buf : List Nat) (st : Core),
    (∀ c ∈ cs, utf8Valid c = true) → st.completed = false →
    splitFirstLine buf = none →
    ∃ b, runStream parse (cs.map NetChunk.ok) buf st
      = some (b, (processLines parse (buf ++ cs.flatten) st).2) := by
  intro cs
  induction cs with
  | nil =>
    intro buf st _ hst hb
    refine ⟨buf, ?_⟩
    simp only [List.map_nil, runStream, List.flatten_nil, List.append_nil]
    rw [processLines_none parse buf st hb]
  | cons c cs ih =>
    intro buf st hv hst hb
    have hvc : utf8Valid c = true := hv c (by simp)
    simp only [List.map_cons, runStream, hvc, if_true, List.flatten_cons]
    have happ := processLines_append parse (buf ++ c) st cs.flatten hst
    rw [List.append_assoc] at happ
    by_cases hc : (processLines parse (buf ++ c) st).2.completed
    · refine ⟨(processLines parse (buf ++ c) st).1, ?_⟩
      rw [happ, if_pos hc]
      simp [hc]
    · obtain ⟨b, hrun⟩ := ih (processLines parse (buf ++ c) st).1
        (processLines parse (buf ++ c) st).2
        (fun x hx => hv x (by simp [hx]))
        (by simpa using hc)
        (processLines_rest_noline parse (buf ++ c) st (by simpa using hc))
      refine ⟨b, ?_⟩
      rw [happ, if_neg hc]
      simp only [hc, if_false]
      exact hrun

/-- Early stop of the line fold distributes over append. -/
theorem foldLines_append (parse : List Nat → Option StreamChunk) :
    ∀ a b st, st.completed = false →
    foldLines parse (a ++ b) st
      = (if (foldLines parse a st).completed then foldLines parse a st
         else foldLines parse b (foldLines parse a st)) := by
  intro a
  induction a with
  | nil =>
    intro b st hst
    simp [foldLines, hst]
  | cons l a ih =>
    intro b st hst
    simp only [List.cons_append, foldLines]
    by_cases hc : (processLine parse st l).completed
    · simp [hc]
    · simp only [hc, if_false]
      exact ih b (processLine parse st l) (by simpa using hc)

/-- A sentinel or empty line leaves the state untouched. -/
theorem processLine_skipped (parse : List Nat → Option StreamChunk)
    (st : Core) (l : List Nat) (h : lineSkipped l = true) :
    processLine parse st l = st := by
  simp only [lineSkipped, lineData] at h
  simp only [processLine]
  rw [if_pos (by simpa using h)]

/-- A line that fails to parse leaves the state untouched. -/
theorem processLine_parse_none (parse : List Nat → Option StreamChunk)
    (st : Core) (l : List Nat) (h : parse (lineData l) = none) :
    processLine parse st l = st := by
  simp only [lineData] at h
  simp only [processLine]
  split
  · rfl
  · rw [h]

/-- A parsed line with no first choice leaves the state untouched. -/
theorem processLine_no_choice (parse : List Nat → Option StreamChunk)
    (st : Core) (l : List Nat) (ch : StreamChunk)
    (hp : parse (lineData l) = some ch)
    (hch : ch.choices = none ∨ ch.choices = some []) :
    processLine parse st l = st := by
  simp only [lineData] at hp
  simp only [processLine]
  split
  · rfl
  · rw [hp]
    dsimp only
    cases hch with
    | inl h => rw [h]
    | inr h => rw [h]

/-- A stop line only marks completion. -/
theorem processLine_stop (parse : List Nat → Option StreamChunk)
    (st : Core) (l : List Nat) (h : lineStops parse l = true) :
    processLine parse st l = { st with completed := true } := by
  simp only [lineStops] at h
  by_cases hskip : lineSkipped l = true
  · rw [if_pos hskip] at h; cases h
  · rw [if_neg hskip] at h
    cases hp : parse (lineData l) with
    | none => rw [hp] at h; simp at h
    | some ch =>
      rw [hp] at h
      dsimp only at h
      cases hch : ch.choices with
      | none => rw [hch] at h; simp at h
      | some cs =>
        cases cs with
        | nil => rw [hch] at h; simp at h
        | cons choice rest =>
          rw [hch] at h
          dsimp only at h
          simp only [decide_eq_true_eq] at h
          simp only [lineSkipped, lineData] at hskip
          simp only [lineData] at hp
          simp only [processLine]
          rw [if_neg (by simpa using hskip), hp]
          dsimp only
          rw [hch]
          dsimp only
          rw [if_pos h]

/-- Explicit value of `processLine` on a delta-carrying line. -/
theorem processLine_delta (parse : List Nat → Option StreamChunk)
    (st : Core) (l : List Nat) (ch : StreamChunk) (choice : StreamChoice)
    (rest : List StreamChoice) (delta : StreamDelta)
    (hskip : lineSkipped l = false)
    (hp : parse (lineData l) = some ch)
    (hch : ch.choices = some (choice :: rest))
    (hfin : choice.finish_reason ≠ some stopBytes)
    (hd : choice.delta = some delta) :
    processLine parse st l =
      (let st1 : Core :=
        { st with clock := st.clock + 1, ttft := some (st.ttft.getD st.clock) }
       let st2 : Core :=
        match delta.content with
        | some text =>
          if text ≠ [] then
            { st1 with text_chunks := st1.text_chunks ++ [(st.clock, text)]
                       events := st1.events ++ [Ev.text text] }
          else st1
        | none => st1
       match delta.audio_chunk with
       | some ac =>
         let samples := leWords (b64decode ac.data)
         if samples.length > 0 then
           { st2 with total_samples := st2.total_samples + samples.length
                      audio_chunks := st2.audio_chunks ++ [(st.clock, samples.length)]
                      events := st2.events ++ [Ev.text noteBytes, Ev.audio samples] }
         else st2
       | none => st2) := by
  simp only [lineSkipped, lineData] at hskip
  simp only [lineData] at hp
  simp only [processLine]
  rw [if_neg (by simpa using hskip), hp]
  dsimp only
  rw [hch]
  dsimp only
  rw [if_neg hfin, hd]
  dsimp only
  cases st.ttft <;> rfl

/-- Per-line field effects on a non-stop line, phrased through the pure
classifiers. -/
theorem processLine_effects (parse : List Nat → Option StreamChunk)
    (st : Core) (l : List Nat) (h : lineStops parse l = false) :
    (processLine parse st l).completed = st.completed
    ∧ (processLine parse st l).clock
        = st.clock + (if lineHasDelta parse l then 1 else 0)
    ∧ (processLine parse st l).ttft
        = (if lineHasDelta parse l then some (st.ttft.getD st.clock) else st.ttft)
    ∧ (processLine parse st l).text_chunks.length
        = st.text_chunks.length + (if lineTextEvent parse l then 1 else 0)
    ∧ (processLine parse st l).events.countP (fun e => e.isAudio)
        = (st.events.countP (fun e => e.isAudio))
          + (if lineAudioEvent parse l then 1 else 0) := by
  by_cases hskip : lineSkipped l = true
  · rw [processLine_skipped parse st l hskip]
    simp [lineHasDelta, lineTextEvent, lineAudioEvent, hskip]
  · have hskip' : lineSkipped l = false := by simpa using hskip
    cases hp : parse (lineData l) with
    | none =>
      rw [processLine_parse_none parse st l hp]
      simp [lineHasDelta, lineTextEvent, lineAudioEvent, hskip', hp]
    | some ch =>
      cases hch : ch.choices with
      | none =>
        rw [processLine_no_choice parse st l ch hp (Or.inl hch)]
        simp [lineHasDelta, lineTextEvent, lineAudioEvent, hskip', hp, hch]
      | some cs =>
        cases cs with
        | nil =>
          rw [processLine_no_choice parse st l ch hp (Or.inr hch)]
          simp [lineHasDelta, lineTextEvent, lineAudioEvent, hskip', hp, hch]
        | cons choice rest =>
          have hfin : choice.finish_reason ≠ some stopBytes := by
            intro hcon
            rw [lineStops, if_neg (by simp [hskip']), hp] at h
            dsimp only at h
            rw [hch] at h
            dsimp only at h
            simp [hcon] at h
          cases hd : choice.delta with
          | none =>
            have hpl : processLine parse st l = st := by
              simp only [lineSkipped, lineData] at hskip'
              simp only [lineData] at hp
              simp only [processLine]
              rw [if_neg (by simpa using hskip'), hp]
              dsimp only
              rw [hch]
              dsimp only
              rw [if_neg hfin, hd]
            rw [hpl]
            simp [lineHasDelta, lineTextEvent, lineAudioEvent, hskip', hp, hch, hfin, hd]
          | some delta =>
            rw [processLine_delta parse st l ch choice rest delta hskip' hp hch hfin hd]
            have hdel : lineHasDelta parse l = true := by
              simp only [lineHasDelta]
              rw [if_neg (by simp [hskip']), hp]
              dsimp only
              rw [hch]
              dsimp only
              simp [hfin, hd]
            have htx : lineTextEvent parse l
                = (match delta.content with
                   | some text => decide (text ≠ [])
                   | none => false) := by
              simp only [lineTextEvent]
              rw [if_neg (by simp [hskip']), hp]
              dsimp only
              rw [hch]
              dsimp only
              rw [if_neg hfin, hd]
            have hau : lineAudioEvent parse l
                = (match delta.audio_chunk with
                   | some ac => decide ((leWords (b64decode ac.data)).length > 0)
                   | none => false) := by
              simp only [lineAudioEvent]
              rw [if_neg (by simp [hskip']), hp]
              dsimp only
              rw [hch]
              dsimp only
              rw [if_neg hfin, hd]
            rw [hdel, htx, hau]
            cases hct : delta.content with
            | none =>
              cases hac : delta.audio_chunk with
              | none => simp [List.countP_append]
              | some ac =>
                by_cases hn : (leWords (b64decode ac.data)).length > 0
                · simp [hn, List.countP_append, Ev.isAudio]
                · simp [hn, List.countP_append]
            | some text =>
              by_cases ht : text = []
              · subst ht
                cases hac : delta.audio_chunk with
                | none => simp [List.countP_append]
                | some ac =>
                  by_cases hn : (leWords (b64decode ac.data)).length > 0
                  · simp [hn, List.countP_append, Ev.isAudio]
                  · simp [hn, List.countP_append]
              · cases hac : delta.audio_chunk with
                | none => simp [ht, List.countP_append, Ev.isAudio]
                | some ac =>
                  by_cases hn : (leWords (b64decode ac.data)).length > 0
                  · simp [ht, hn, List.countP_append, Ev.isAudio]
                  · simp [ht, hn, List.countP_append, Ev.isAudio]

/-- Accumulation over a run of non-stop lines: completion stays false, the
text-delta count and audio-event count grow by the per-line classifier
counts, and time-to-first-token is assigned the entry clock on the first
delta-carrying line and never reassigned. -/
theorem foldLines_accum (parse : List Nat → Option StreamChunk) :
    ∀ (ls : List (List Nat)) (st : Core), st.completed = false →
    (∀ l ∈ ls, lineStops parse l = false) →
    (foldLines parse ls st).completed = false
    ∧ (foldLines parse ls st).text_chunks.length
        = st.text_chunks.length + ls.countP (lineTextEvent parse)
    ∧ (foldLines parse ls st).events.countP (fun e => e.isAudio)
        = st.events.countP (fun e => e.isAudio) + ls.countP (lineAudioEvent parse)
    ∧ (foldLines parse ls st).ttft
        = (if ls.any (lineHasDelta parse) then some (st.ttft.getD st.clock)
           else st.ttft) := by
  intro ls
  induction ls with
  | nil =>
    intro st hst _
    simp [foldLines, hst]
  | cons l ls ih =>
    intro st hst hns
    have hl : lineStops parse l = false := hns l (by simp)
    obtain ⟨e1, e2, e3, e4, e5⟩ := processLine_effects parse st l hl
    have hst2 : (processLine parse st l).completed = false := by rw [e1]; exact hst
    have hnot : ¬(processLine parse st l).completed = true := by simp [hst2]
    obtain ⟨f1, f2, f3, f4⟩ := ih (processLine parse st l) hst2
      (fun x hx => hns x (by simp [hx]))
    refine ⟨?_, ?_, ?_, ?_⟩
    · simp only [foldLines, hst2, Bool.false_eq_true, if_false]
      exact f1
    · simp only [foldLines, hst2, Bool.false_eq_true, if_false, List.countP_cons]
      rw [f2, e4]
      by_cases ht : lineTextEvent parse l <;> simp [ht] <;> omega
    · simp only [foldLines, hst2, Bool.false_eq_true, if_false, List.countP_cons]
      rw [f3, e5]
      by_cases ha : lineAudioEvent parse l <;> simp [ha] <;> omega
    · simp only [foldLines, hst2, Bool.false_eq_true, if_false, List.any_cons]
      rw [f4, e3]
      by_cases hd : lineHasDelta parse l
      · simp only [hd, if_true, Bool.true_or]
        by_cases hany : ls.any (lineHasDelta parse) <;> simp [hany]
      · rw [e2]
        simp only [hd, Bool.false_eq_true, if_false, Bool.false_or, Nat.add_zero]

/-! ## Claim C9: bounded non-blocking playback queue -/

/-- C9: the playback queue is a bounded FIFO of capacity 64 chunks and
`add_samples` never blocks: a non-empty chunk pushed at capacity is
silently dropped with the queue unchanged (and no error is possible —
`add_samples` is a total function into the new queue); below capacity the
chunk is enqueued at the back, and an empty chunk is never sent. -/
theorem c9_queue_drop_newest (q : List (List ℚ)) (c : List ℚ)
    (hne : c ≠ []) (hfull : q.length = QUEUE_CAPACITY) :
    QUEUE_CAPACITY = 64
    ∧ add_samples q c = q
    ∧ (∀ q2 : List (List ℚ), q2.length < QUEUE_CAPACITY → add_samples q2 c = q2 ++ [c])
    ∧ (∀ q3 : List (List ℚ), add_samples q3 [] = q3) := by
  refine ⟨rfl, ?_, ?_, ?_⟩
  · simp [add_samples, try_send, hne, hfull]
  · intro q2 h2
    simp [add_samples, try_send, hne, h2]
  · intro q3
    simp [add_samples]

/-- C9 witness: a queue holding 64 chunks drops the next one. -/
theorem c9_queue_drop_newest_witness :
    ([(2 : ℚ)] ≠ [] ∧ (List.replicate 64 [(1 : ℚ)]).length = QUEUE_CAPACITY)
    ∧ add_samples (List.replicate 64 [(1 : ℚ)]) [(2 : ℚ)]
        = List.replicate 64 [(1 : ℚ)] := by
  refine ⟨⟨by simp, by simp [QUEUE_CAPACITY]⟩, ?_⟩
  exact (c9_queue_drop_newest (List.replicate 64 [(1 : ℚ)]) [(2 : ℚ)]
    (by simp) (by simp [QUEUE_CAPACITY])).2.1

/-! ## Claim C10: WAV encoding and field round-trip -/

/-- Explicit byte-level form of an encoded WAV container. -/
theorem wav_bytes_explicit (samples : List ℚ) (rate : Nat) :
    samples_to_wav_bytes samples rate
      = 82 :: 73 :: 70 :: 70
        :: ((36 + 2 * samples.length) % 256) :: ((36 + 2 * samples.length) / 256 % 256)
        :: ((36 + 2 * samples.length) / 65536 % 256)
        :: ((36 + 2 * samples.length) / 16777216 % 256)
        :: 87 :: 65 :: 86 :: 69 :: 102 :: 109 :: 116 :: 32
        :: 16 :: 0 :: 0 :: 0 :: 1 :: 0 :: 1 :: 0
        :: (rate % 256) :: (rate / 256 % 256) :: (rate / 65536 % 256)
        :: (rate / 16777216 % 256)
        :: (rate * 2 % 256) :: (rate * 2 / 256 % 256) :: (rate * 2 / 65536 % 256)
        :: (rate * 2 / 16777216 % 256)
        :: 2 :: 0 :: 16 :: 0 :: 100 :: 97 :: 116 :: 97
        :: (2 * samples.length % 256) :: (2 * samples.length / 256 % 256)
        :: (2 * samples.length / 65536 % 256) :: (2 * samples.length / 16777216 % 256)
        :: (samples.map (fun s => i16le (sampleToI16 s))).flatten := by
  simp [samples_to_wav_bytes, wavHeader, u32le, u16le]

/-- C10: WAV encoding clamps each sample to `[-1, 1]`, scales by 32767 and
truncates to a signed 16-bit integer (`sampleToI16`), places the resulting
little-endian sample words after the 44-byte mono 16-bit PCM header, and
reading the container fields back yields PCM format 1, 16 bits per sample,
channel count 1, the encoding sample rate and the encoded sample count. -/
theorem c10_wav_roundtrip (samples : List ℚ) (rate : Nat)
    (hr : rate < 4294967296) (hn : 36 + 2 * samples.length < 4294967296) :
    List.drop 44 (samples_to_wav_bytes samples rate)
      = (samples.map (fun s => i16le (truncQ (clampUnit s * 32767)))).flatten
    ∧ readU16 (samples_to_wav_bytes samples rate) 20 = 1
    ∧ readU16 (samples_to_wav_bytes samples rate) 34 = 16
    ∧ wavChannels (samples_to_wav_bytes samples rate) = 1
    ∧ wavRate (samples_to_wav_bytes samples rate) = rate
    ∧ wavCount (samples_to_wav_bytes samples rate) = samples.length := by
  rw [wav_bytes_explicit]
  refine ⟨?_, ?_, ?_, ?_, ?_, ?_⟩
  · simp [sampleToI16]
  · simp [readU16]
  · simp [readU16]
  · simp [wavChannels, readU16]
  · rw [wavRate, readU32]
    simp only [List.getD]
    simp
    omega
  · rw [wavCount, readU32]
    simp only [List.getD]
    simp
    omega

/-! ## Claims C5 and C6: the output callback -/

/-- Sizes produced by the leftover drain: the copied block has length
exactly the drained count, which is at most the buffer size. -/
theorem leftDrain_sizes (n : Nat) (left : Option (List ℚ × Nat)) :
    (leftDrain n left).1.length = (leftDrain n left).2.1
    ∧ (leftDrain n left).2.1 ≤ n := by
  cases left with
  | none => simp [leftDrain]
  | some p =>
    obtain ⟨v, off⟩ := p
    simp only [leftDrain]
    constructor
    · simp only [List.length_take, List.length_drop]
      omega
    · omega

/-- Sizes produced by the queue drain: the copied block accounts exactly
for the growth of `written`, which never exceeds the buffer size. -/
theorem drainQueue_sizes (n : Nat) :
    ∀ (q : List (List ℚ)) (written : Nat) (left : Option (List ℚ × Nat)),
    written ≤ n →
    (drainQueue n written left q).1.length = (drainQueue n written left q).2.1 - written
    ∧ written ≤ (drainQueue n written left q).2.1
    ∧ (drainQueue n written left q).2.1 ≤ n := by
  intro q
  induction q with
  | nil =>
    intro written left hw
    by_cases h : written < n <;> simp [drainQueue, h, hw]
  | cons chunk rest ih =>
    intro written left hw
    by_cases h : written < n
    · simp only [drainQueue, h, if_true]
      by_cases ht : min (n - written) chunk.length < chunk.length
      · simp only [ht, if_true]
        refine ⟨?_, ?_, ?_⟩
        · simp only [List.length_take]
          omega
        · omega
        · omega
      · simp only [ht, if_false]
        obtain ⟨i1, i2, i3⟩ := ih (written + min (n - written) chunk.length) left (by omega)
        refine ⟨?_, ?_, ?_⟩
        · simp only [List.length_append, List.length_take, i1]
          omega
        · omega
        · omega
    · simp [drainQueue, h, hw]

/-- The leftover coming out of the queue drain is either the one passed in
or a freshly started chunk carried at offset zero with a strictly partial
drain. -/
theorem drainQueue_leftover (n : Nat) :
    ∀ (q : List (List ℚ)) (written : Nat) (left : Option (List ℚ × Nat)),
    (drainQueue n written left q).2.2.1 = left
    ∨ ∃ (c : List ℚ) (t : Nat), t < c.length
        ∧ (drainQueue n written left q).2.2.1 = some (c.drop t, 0) := by
  intro q
  induction q with
  | nil =>
    intro written left
    by_cases h : written < n <;> simp [drainQueue, h]
  | cons chunk rest ih =>
    intro written left
    by_cases h : written < n
    · simp only [drainQueue, h, if_true]
      by_cases ht : min (n - written) chunk.length < chunk.length
      · simp only [ht, if_true]
        exact Or.inr ⟨chunk, min (n - written) chunk.length, ht, rfl⟩
      · simp only [ht, if_false]
        exact ih (written + min (n - written) chunk.length) left
    · simp [drainQueue, h]

/-- A full buffer passes the queue drain through unchanged. -/
theorem drainQueue_full (n : Nat) (q : List (List ℚ)) (written : Nat)
    (left : Option (List ℚ × Nat)) (h : ¬written < n) :
    drainQueue n written left q = ([], written, left, q) := by
  cases q <;> simp [drainQueue, h]

/-- Closed form of the written buffer: the drained samples followed by the
zero padding of the tail. -/
theorem outputCallback_out (s : PlayState) (prev : List ℚ) :
    (outputCallback s prev).1
      = (leftDrain prev.length s.leftover).1
        ++ (drainQueue prev.length (leftDrain prev.length s.leftover).2.1
             (leftDrain prev.length s.leftover).2.2 s.queue).1
        ++ List.replicate (prev.length - playWritten s prev.length) 0 := by
  obtain ⟨hd1, hd2⟩ := leftDrain_sizes prev.length s.leftover
  obtain ⟨hq1, hq2, hq3⟩ := drainQueue_sizes prev.length s.queue
    (leftDrain prev.length s.leftover).2.1 (leftDrain prev.length s.leftover).2.2 hd2
  simp only [outputCallback, playWritten]
  by_cases h : (drainQueue prev.length (leftDrain prev.length s.leftover).2.1
      (leftDrain prev.length s.leftover).2.2 s.queue).2.1 < prev.length
  · simp only [h, if_true]
    congr 1
    rw [List.take_append_of_le_length (by rw [List.length_append, hd1, hq1]; omega)]
    apply List.take_of_length_le
    rw [List.length_append, hd1, hq1]
    omega
  · simp only [h, if_false]
    have hw : (drainQueue prev.length (leftDrain prev.length s.leftover).2.1
        (leftDrain prev.length s.leftover).2.2 s.queue).2.1 = prev.length := by omega
    rw [hw, List.drop_length]
    simp

/-- The next-invocation state of the callback. -/
theorem outputCallback_state (s : PlayState) (prev : List ℚ) :
    (outputCallback s prev).2
      = ⟨(drainQueue prev.length (leftDrain prev.length s.leftover).2.1
           (leftDrain prev.length s.leftover).2.2 s.queue).2.2.1,
         (drainQueue prev.length (leftDrain prev.length s.leftover).2.1
           (leftDrain prev.length s.leftover).2.2 s.queue).2.2.2⟩ := rfl

/-- C5: every callback invocation fills the whole hardware buffer — the
output has exactly the buffer's length, it does not depend on the previous
buffer contents (no stale data), everything past the written count is the
zero sample, and when the queue is empty and no leftover is carried the
entire buffer is silence. -/
theorem c5_zero_fill (s : PlayState) (prev : List ℚ) :
    ((outputCallback s prev).1).length = prev.length
    ∧ (∀ prev2 : List ℚ, prev2.length = prev.length →
        (outputCallback s prev2).1 = (outputCallback s prev).1)
    ∧ List.drop (playWritten s prev.length) (outputCallback s prev).1
        = List.replicate (prev.length - playWritten s prev.length) 0
    ∧ (s.queue = [] → s.leftover = none →
        (outputCallback s prev).1 = List.replicate prev.length 0) := by
  obtain ⟨hd1, hd2⟩ := leftDrain_sizes prev.length s.leftover
  obtain ⟨hq1, hq2, hq3⟩ := drainQueue_sizes prev.length s.queue
    (leftDrain prev.length s.leftover).2.1 (leftDrain prev.length s.leftover).2.2 hd2
  have hout := outputCallback_out s prev
  have hple : playWritten s prev.length ≤ prev.length := hq3
  have hlen2 : ((leftDrain prev.length s.leftover).1
      ++ (drainQueue prev.length (leftDrain prev.length s.leftover).2.1
           (leftDrain prev.length s.leftover).2.2 s.queue).1).length
      = playWritten s prev.length := by
    rw [List.length_append, hd1, hq1, playWritten]
    omega
  refine ⟨?_, ?_, ?_, ?_⟩
  · rw [hout]
    simp only [List.length_append, List.length_replicate, hd1, hq1]
    rw [playWritten] at hple ⊢
    omega
  · intro prev2 h2
    rw [hout, outputCallback_out s prev2, h2]
  · rw [hout, ← hlen2, List.drop_left, hlen2]
  · intro hq hl
    rw [hout, hq, hl]
    simp only [leftDrain]
    rw [drainQueue]
    by_cases h0 : 0 < prev.length
    · simp only [h0, if_true]
      simp [playWritten, hq, hl, leftDrain, drainQueue, h0]
    · simp only [h0, if_false]
      simp [playWritten, hq, hl, leftDrain, drainQueue, h0]

/-- C5 witness: an empty engine turns a three-sample buffer of stale data
into pure silence of the same length. -/
theorem c5_zero_fill_witness :
    ((outputCallback ⟨none, []⟩ [(5 : ℚ), 6, 7]).1).length = 3
    ∧ ((⟨none, []⟩ : PlayState).queue = [] → (⟨none, []⟩ : PlayState).leftover = none →
        (outputCallback ⟨none, []⟩ [(5 : ℚ), 6, 7]).1 = List.replicate 3 0) := by
  have h := c5_zero_fill ⟨none, []⟩ [(5 : ℚ), 6, 7]
  exact ⟨h.1, h.2.2.2⟩

/-- C6: the leftover invariant of the callback.  At most one chunk is
carried (the state holds an `Option`); `0 ≤ offset < length` is preserved
by every invocation; while the carried chunk remains partially drained its
offset advances by exactly the drained amount — strictly, for a non-empty
hardware buffer — and never past the chunk length; and the carried chunk
is retained precisely while it is not fully drained. -/
theorem c6_leftover_invariant (s : PlayState) (prev : List ℚ)
    (hwf : leftWF s.leftover) :
    leftWF ((outputCallback s prev).2).leftover
    ∧ (∀ v off, s.leftover = some (v, off) →
        off + min prev.length (v.length - off) ≤ v.length
        ∧ (((outputCallback s prev).2).leftover
             = some (v, off + min prev.length (v.length - off))
            ↔ off + min prev.length (v.length - off) < v.length)
        ∧ (0 < prev.length → off + min prev.length (v.length - off) < v.length →
            off < off + min prev.length (v.length - off))) := by
  rw [outputCallback_state]
  cases hl : s.leftover with
  | none =>
    simp only [hl, leftDrain]
    constructor
    · rcases drainQueue_leftover prev.length s.queue 0 none with h | ⟨c, t, ht, h⟩
      · rw [h]; trivial
      · rw [h]
        simp only [leftWF, List.length_drop]
        omega
    · intro v off hcon; cases hcon
  | some p =>
    obtain ⟨v, off⟩ := p
    rw [hl] at hwf
    simp only [leftWF] at hwf
    simp only [hl, leftDrain]
    by_cases hfull : v.length ≤ off + min prev.length (v.length - off)
    · have hoff : off + min prev.length (v.length - off) = v.length := by omega
      simp only [hfull, if_true]
      constructor
      · rcases drainQueue_leftover prev.length s.queue
            (min prev.length (v.length - off)) none with h | ⟨c, t, ht, h⟩
        · rw [h]; trivial
        · rw [h]
          simp only [leftWF, List.length_drop]
          omega
      · intro v2 off2 heq
        injection heq with h1
        injection h1 with hv ho
        subst hv; subst ho
        refine ⟨by omega, ?_, by omega⟩
        constructor
        · intro habs
          rcases drainQueue_leftover prev.length s.queue
              (min prev.length (v.length - off)) none with h | ⟨c, t, ht, h⟩
          · rw [h] at habs; cases habs
          · rw [h] at habs
            injection habs with h2
            injection h2 with _ ho2
            omega
        · intro habs; omega
    · have hmin : min prev.length (v.length - off) = prev.length := by omega
      simp only [hfull, if_false]
      have hpass := drainQueue_full prev.length s.queue
        (min prev.length (v.length - off)) (some (v, off + min prev.length (v.length - off)))
        (by omega)
      rw [hpass]
      constructor
      · simp only [leftWF]
        omega
      · intro v2 off2 heq
        injection heq with h1
        injection h1 with hv ho
        subst hv; subst ho
        refine ⟨by omega, ?_, by omega⟩
        constructor
        · intro _; omega
        · intro _; rfl

/-- C6 witness: carrying a four-sample chunk at offset 1 across a
two-sample buffer advances the offset to 3 and keeps the invariant. -/
theorem c6_leftover_invariant_witness :
    leftWF (some ([(1 : ℚ), 2, 3, 4], 1))
    ∧ leftWF ((outputCallback ⟨some ([(1 : ℚ), 2, 3, 4], 1), []⟩ [(0 : ℚ), 0]).2).leftover
    ∧ (((outputCallback ⟨some ([(1 : ℚ), 2, 3, 4], 1), []⟩ [(0 : ℚ), 0]).2).leftover
         = some ([(1 : ℚ), 2, 3, 4], 1 + min 2 (([(1 : ℚ), 2, 3, 4]).length - 1))
        ↔ 1 + min 2 (([(1 : ℚ), 2, 3, 4]).length - 1) < ([(1 : ℚ), 2, 3, 4]).length) := by
  have h := c6_leftover_invariant ⟨some ([(1 : ℚ), 2, 3, 4], 1), []⟩ [(0 : ℚ), 0]
    (by simp [leftWF])
  exact ⟨by simp [leftWF], h.1, (h.2 [(1 : ℚ), 2, 3, 4] 1 rfl).2.1⟩

/-- C10 witness: a concrete three-sample encode at 16 kHz reads back
channels 1, rate 16000 and count 3. -/
theorem c10_wav_roundtrip_witness :
    (16000 < 4294967296 ∧ 36 + 2 * ([(1 : ℚ)/2, -2, 3/4]).length < 4294967296)
    ∧ wavChannels (samples_to_wav_bytes [(1 : ℚ)/2, -2, 3/4] 16000) = 1
    ∧ wavRate (samples_to_wav_bytes [(1 : ℚ)/2, -2, 3/4] 16000) = 16000
    ∧ wavCount (samples_to_wav_bytes [(1 : ℚ)/2, -2, 3/4] 16000) = 3 := by
  have h := c10_wav_roundtrip [(1 : ℚ)/2, -2, 3/4] 16000 (by decide) (by decide)
  exact ⟨⟨by decide, by decide⟩, h.2.2.2.1, h.2.2.2.2.1, h.2.2.2.2.2⟩

/-! ## Claim C4: line trimming, field marker, sentinel handling -/

/-- C4 (failing input): the field marker is not optional in the code.  The
well-formed record line `lineHi` parses once its marker is stripped, and
with the marker it yields one text event; but the same record without the
marker has an empty data part (`unwrap_or` of the failed strip), so the
decoder ignores it entirely — no event, no text — contradicting the claim
that a well-formed line is processed the same without the marker.  The
true parts of the claim also hold on this input: the line is trimmed, and
a sentinel line is ignored without terminating parsing. -/
theorem c4_marker_required_failing :
    (parseSpec (lineData lineHi)).isSome = true
    ∧ lineData (jsonBytes hiJson) = []
    ∧ process_stream parseSpec [NetChunk.ok (joinLines [lineHi])]
        = some ([72, 105], ⟨some 0, 1, 1, 0, 0, 0, false⟩, [Ev.text [72, 105]])
    ∧ process_stream parseSpec [NetChunk.ok (joinLines [jsonBytes hiJson])]
        = some ([], ⟨none, 0, 0, 0, 0, 0, false⟩, [])
    ∧ process_stream parseSpec
        [NetChunk.ok (joinLines [[32, 32] ++ lineHi ++ [13], lineDone])]
        = process_stream parseSpec [NetChunk.ok (joinLines [lineHi])] := by
  refine ⟨by decide, by decide, by decide, by decide, by decide⟩

/-! ## Claim C7: audio delta decoding -/

/-- `chunks_exact(4)` yields one sample word per whole 4-byte group. -/
theorem leWords_length (bs : List Nat) : (leWords bs).length = bs.length / 4 := by
  match bs with
  | [] => rfl
  | [a] => simp [leWords]
  | [a, b] => simp [leWords]
  | [a, b, c] => simp [leWords]
  | a :: b :: c :: d :: rest =>
    have ih := leWords_length rest
    simp only [leWords, List.length_cons, ih]
    omega

/-- The trailing `length % 4` bytes are discarded: only the first
`4 * (length / 4)` bytes contribute samples. -/
theorem leWords_take (bs : List Nat) :
    leWords (bs.take (4 * (bs.length / 4))) = leWords bs := by
  match bs with
  | [] => rfl
  | [a] => simp [leWords]
  | [a, b] => simp [leWords]
  | [a, b, c] => simp [leWords]
  | a :: b :: c :: d :: rest =>
    have ih := leWords_take rest
    have h4 : 4 * ((a :: b :: c :: d :: rest).length / 4)
        = (((4 * (rest.length / 4) + 1) + 1) + 1) + 1 := by
      simp only [List.length_cons]
      omega
    rw [h4]
    simp only [List.take_succ_cons, leWords, ih]

/-- C7: on an audio delta, a base64 payload decoding to `4k + r` bytes
(`0 ≤ r < 4`) yields exactly `k` little-endian sample words, the trailing
`r` bytes are discarded, the total sample count grows by `k`, and the
callbacks fire — the note marker on `on_text` followed by `on_audio` with
those `k` samples — precisely when `k` is non-zero. -/
theorem c7_audio_delta (parse : List Nat → Option StreamChunk)
    (st : Core) (l : List Nat) (ch : StreamChunk) (choice : StreamChoice)
    (crest : List StreamChoice) (delta : StreamDelta) (ac : AudioChunk)
    (hskip : lineSkipped l = false)
    (hp : parse (lineData l) = some ch)
    (hch : ch.choices = some (choice :: crest))
    (hfin : choice.finish_reason ≠ some stopBytes)
    (hd : choice.delta = some delta)
    (hac : delta.audio_chunk = some ac) :
    (leWords (b64decode ac.data)).length = (b64decode ac.data).length / 4
    ∧ leWords ((b64decode ac.data).take (4 * ((b64decode ac.data).length / 4)))
        = leWords (b64decode ac.data)
    ∧ (processLine parse st l).events
        = st.events
          ++ (match delta.content with
              | some text => if text ≠ [] then [Ev.text text] else []
              | none => [])
          ++ (if (b64decode ac.data).length / 4 ≠ 0 then
                [Ev.text noteBytes, Ev.audio (leWords (b64decode ac.data))]
              else [])
    ∧ (processLine parse st l).total_samples
        = st.total_samples + (b64decode ac.data).length / 4 := by
  refine ⟨leWords_length (b64decode ac.data), leWords_take (b64decode ac.data), ?_, ?_⟩
  all_goals
    rw [processLine_delta parse st l ch choice crest delta hskip hp hch hfin hd]
    rw [hac]
    cases hct : delta.content with
    | none =>
      by_cases hn : (leWords (b64decode ac.data)).length > 0
      · have hk : (b64decode ac.data).length / 4 ≠ 0 := by
          rw [← leWords_length]; omega
        have hne := List.length_pos.mp hn
        simp [hn, hk, hne, ← leWords_length]
      · have hk : (b64decode ac.data).length / 4 = 0 := by
          rw [← leWords_length]; omega
        have hnil : leWords (b64decode ac.data) = [] :=
          List.length_eq_zero.mp (by omega)
        simp [hn, hk, hnil, ← leWords_length]
    | some text =>
      by_cases ht : text = []
      · subst ht
        by_cases hn : (leWords (b64decode ac.data)).length > 0
        · have hk : (b64decode ac.data).length / 4 ≠ 0 := by
            rw [← leWords_length]; omega
          have hne := List.length_pos.mp hn
          simp [hn, hk, hne, ← leWords_length]
        · have hk : (b64decode ac.data).length / 4 = 0 := by
            rw [← leWords_length]; omega
          have hnil : leWords (b64decode ac.data) = [] :=
            List.length_eq_zero.mp (by omega)
          simp [hn, hk, hnil, ← leWords_length]
      · by_cases hn : (leWords (b64decode ac.data)).length > 0
        · have hk : (b64decode ac.data).length / 4 ≠ 0 := by
            rw [← leWords_length]; omega
          have hne := List.length_pos.mp hn
          simp [ht, hn, hk, hne, ← leWords_length]
        · have hk : (b64decode ac.data).length / 4 = 0 := by
            rw [← leWords_length]; omega
          have hnil : leWords (b64decode ac.data) = [] :=
            List.length_eq_zero.mp (by omega)
          simp [ht, hn, hk, hnil, ← leWords_length]

/-- C7 witness: the concrete audio line whose payload `AAAAAAA=` decodes
to five bytes, hence one sample word and the note-then-audio callback
pair. -/
theorem c7_audio_delta_witness :
    (lineSkipped lineAudio = false
     ∧ parseSpec (lineData lineAudio)
         = some ⟨some [⟨some ⟨none, some ⟨[65, 65, 65, 65, 65, 65, 65, 61]⟩⟩, none⟩]⟩
     ∧ (b64decode [65, 65, 65, 65, 65, 65, 65, 61]).length = 5)
    ∧ (processLine parseSpec initCore lineAudio).events
        = [] ++ [] ++ [Ev.text noteBytes, Ev.audio [0]]
    ∧ (processLine parseSpec initCore lineAudio).total_samples = 0 + 1 := by
  have h := c7_audio_delta parseSpec initCore lineAudio
    ⟨some [⟨some ⟨none, some ⟨[65, 65, 65, 65, 65, 65, 65, 61]⟩⟩, none⟩]⟩
    ⟨some ⟨none, some ⟨[65, 65, 65, 65, 65, 65, 65, 61]⟩⟩, none⟩
    [] ⟨none, some ⟨[65, 65, 65, 65, 65, 65, 65, 61]⟩⟩ ⟨[65, 65, 65, 65, 65, 65, 65, 61]⟩
    (by decide) (by decide) rfl (by decide) rfl rfl
  refine ⟨⟨by decide, by decide, by decide⟩, ?_, ?_⟩
  · have := h.2.2.1
    simpa using this
  · have := h.2.2.2
    simpa using this

/-! ## Claim C2: time-to-first-token -/

/-- The first element surviving `dropWhile` fails the predicate. -/
theorem dropWhile_head_false (p : List Nat → Bool) :
    ∀ (ls : List (List Nat)) (d : List Nat) (rest : List (List Nat)),
    List.dropWhile p ls = d :: rest → p d = false := by
  intro ls
  induction ls with
  | nil => intro d rest h; simp [List.dropWhile] at h
  | cons x xs ih =>
    intro d rest h
    by_cases hp : p x = true
    · rw [List.dropWhile_cons_of_pos hp] at h
      exact ih d rest h
    · rw [List.dropWhile_cons_of_neg hp] at h
      injection h with h1 _
      subst h1
      simpa using hp

/-- C2 (counterexample to the claim as stated): a line whose delta object
is empty delivers no text or audio delta — the callback trace is empty and
both counts are zero — yet the decoder samples the clock on it and sets
time-to-first-token. -/
theorem c2_ttft_counterexample :
    process_stream parseSpec [NetChunk.ok (joinLines [lineEmptyDelta, lineStop, lineDone])]
      = some ([], ⟨some 0, 1, 0, 0, 0, 0, true⟩, []) := by decide

/-- C2 (amended): in the returned stats, time-to-first-token is `None` iff
no processed line (before the stop line) carried a delta object; otherwise
it is set exactly once, to the clock sample taken at the first
delta-carrying line — the first clock sample of the run, index 0 —
regardless of whether that delta carried text, audio, or nothing. -/
theorem c2_ttft_first_delta (parse : List Nat → Option StreamChunk)
    (ls : List (List Nat))
    (hnl : ∀ l ∈ ls, noNL l = true)
    (hv : utf8Valid (joinLines ls) = true) :
    ∃ txt stats evs,
      process_stream parse [NetChunk.ok (joinLines ls)] = some (txt, stats, evs)
      ∧ stats.ttft_secs
          = (if (ls.takeWhile (fun l => !(lineStops parse l))).any (lineHasDelta parse)
             then some 0 else none) := by
  obtain ⟨b, hrun⟩ := runStream_flatten parse [joinLines ls] [] initCore
    (by intro c hc; simp at hc; subst hc; exact hv) rfl rfl
  simp only [List.map_cons, List.map_nil] at hrun
  have hjoin : (([] : List Nat) ++ ([joinLines ls] : List (List Nat)).flatten)
      = joinLines ls ++ [] := by simp
  rw [hjoin] at hrun
  have hcore : (processLines parse (joinLines ls ++ []) initCore).2
      = foldLines parse ls initCore :=
    processLines_join parse ls initCore [] hnl rfl (Or.inr rfl)
  rw [hcore] at hrun
  refine ⟨(mkResult (foldLines parse ls initCore)).1,
          (mkResult (foldLines parse ls initCore)).2.1,
          (mkResult (foldLines parse ls initCore)).2.2, ?_, ?_⟩
  · rw [process_stream, hrun]
  · show (foldLines parse ls initCore).ttft = _
    have hsplit := List.takeWhile_append_dropWhile
      (p := fun l => !(lineStops parse l)) (l := ls)
    have htk : ∀ l ∈ ls.takeWhile (fun l => !(lineStops parse l)),
        lineStops parse l = false := by
      intro l hl
      have := List.mem_takeWhile_imp hl
      simpa using this
    obtain ⟨a1, a2, a3, a4⟩ := foldLines_accum parse
      (ls.takeWhile (fun l => !(lineStops parse l))) initCore rfl htk
    have hfold : foldLines parse ls initCore
        = foldLines parse (ls.takeWhile (fun l => !(lineStops parse l))
            ++ ls.dropWhile (fun l => !(lineStops parse l))) initCore := by
      rw [hsplit]
    rw [hfold, foldLines_append parse _ _ initCore rfl]
    rw [if_neg (by rw [a1]; simp)]
    cases hdw : ls.dropWhile (fun l => !(lineStops parse l)) with
    | nil =>
      simp only [foldLines]
      rw [a4]
      simp [initCore]
    | cons d rest =>
      have hstop : lineStops parse d = true := by
        have := dropWhile_head_false (fun l => !(lineStops parse l)) ls d rest hdw
        simpa using this
      have hpl := processLine_stop parse
        (foldLines parse (ls.takeWhile (fun l => !(lineStops parse l))) initCore) d hstop
      simp only [foldLines, hpl]
      rw [a4]
      simp [initCore]

/-- C2 witness: the amended statement on the concrete text-then-stop run —
exactly one delta line before the stop, so `ttft` is sample 0. -/
theorem c2_ttft_first_delta_witness :
    ((∀ l ∈ [lineHi, lineStop, lineDone], noNL l = true)
     ∧ utf8Valid (joinLines [lineHi, lineStop, lineDone]) = true)
    ∧ ∃ txt stats evs,
      process_stream parseSpec [NetChunk.ok (joinLines [lineHi, lineStop, lineDone])]
        = some (txt, stats, evs)
      ∧ stats.ttft_secs
          = (if (([lineHi, lineStop, lineDone]).takeWhile
                  (fun l => !(lineStops parseSpec l))).any (lineHasDelta parseSpec)
             then some 0 else none) := by
  refine ⟨⟨by decide, by decide⟩, ?_⟩
  exact c2_ttft_first_delta parseSpec [lineHi, lineStop, lineDone] (by decide) (by decide)

/-! ## Claim C8: malformed lines are skipped and harmless -/

/-- C8: a structurally malformed line — non-empty data, not the sentinel,
failing to parse — inserted anywhere between the lines of a stream changes
nothing: the full text, the stats and the whole callback trace of
`process_stream` are identical with and without it. -/
theorem c8_malformed_skipped (parse : List Nat → Option StreamChunk)
    (ls1 ls2 : List (List Nat)) (M : List Nat)
    (h1 : ∀ l ∈ ls1 ++ ls2, noNL l = true)
    (hM : noNL M = true)
    (hm1 : lineData M ≠ [])
    (hm2 : lineData M ≠ doneBytes)
    (hm3 : parse (lineData M) = none)
    (hv1 : utf8Valid (joinLines (ls1 ++ M :: ls2)) = true)
    (hv2 : utf8Valid (joinLines (ls1 ++ ls2)) = true) :
    process_stream parse [NetChunk.ok (joinLines (ls1 ++ M :: ls2))]
      = process_stream parse [NetChunk.ok (joinLines (ls1 ++ ls2))] := by
  have hnl1 : ∀ l ∈ ls1 ++ M :: ls2, noNL l = true := by
    intro l hl
    rcases List.mem_append.mp hl with h | h
    · exact h1 l (List.mem_append.mpr (Or.inl h))
    · rcases List.mem_cons.mp h with h | h
      · subst h; exact hM
      · exact h1 l (List.mem_append.mpr (Or.inr h))
  obtain ⟨b1, hrun1⟩ := runStream_flatten parse [joinLines (ls1 ++ M :: ls2)] [] initCore
    (by intro c hc; simp at hc; subst hc; exact hv1) rfl rfl
  obtain ⟨b2, hrun2⟩ := runStream_flatten parse [joinLines (ls1 ++ ls2)] [] initCore
    (by intro c hc; simp at hc; subst hc; exact hv2) rfl rfl
  simp only [List.map_cons, List.map_nil] at hrun1 hrun2
  have hj1 : (([] : List Nat) ++ ([joinLines (ls1 ++ M :: ls2)] : List (List Nat)).flatten)
      = joinLines (ls1 ++ M :: ls2) ++ [] := by simp
  have hj2 : (([] : List Nat) ++ ([joinLines (ls1 ++ ls2)] : List (List Nat)).flatten)
      = joinLines (ls1 ++ ls2) ++ [] := by simp
  rw [hj1, processLines_join parse _ initCore [] hnl1 rfl (Or.inr rfl)] at hrun1
  rw [hj2, processLines_join parse _ initCore [] h1 rfl (Or.inr rfl)] at hrun2
  have hcores : foldLines parse (ls1 ++ M :: ls2) initCore
      = foldLines parse (ls1 ++ ls2) initCore := by
    rw [foldLines_append parse ls1 (M :: ls2) initCore rfl,
        foldLines_append parse ls1 ls2 initCore rfl]
    by_cases hc : (foldLines parse ls1 initCore).completed
    · simp [hc]
    · simp only [hc, Bool.false_eq_true, if_false]
      simp only [foldLines, processLine_parse_none parse _ M hm3]
      simp [hc]
  simp only [process_stream, hrun1, hrun2, hcores]

/-- C8 witness: the concrete malformed line `data: ` + an unclosed brace +
`not json` between a text line and an audio-then-stop run is invisible in
the output. -/
theorem c8_malformed_skipped_witness :
    ((∀ l ∈ [lineHi] ++ [lineAudio, lineStop], noNL l = true)
     ∧ noNL lineBad = true
     ∧ lineData lineBad ≠ []
     ∧ lineData lineBad ≠ doneBytes
     ∧ parseSpec (lineData lineBad) = none)
    ∧ process_stream parseSpec
        [NetChunk.ok (joinLines ([lineHi] ++ lineBad :: [lineAudio, lineStop]))]
        = process_stream parseSpec
            [NetChunk.ok (joinLines ([lineHi] ++ [lineAudio, lineStop]))] := by
  refine ⟨⟨by decide, by decide, by decide, by decide, by decide⟩, ?_⟩
  exact c8_malformed_skipped parseSpec [lineHi] [lineAudio, lineStop] lineBad
    (by decide) (by decide) (by decide) (by decide) (by decide) (by decide) (by decide)

/-! ## Claim C3: termination on the stop indicator -/

/-- C3: when a line's first choice carries the finish indicator `stop`,
decoding terminates immediately — any bytes already buffered after the
stop line (including a trailing sentinel line) are never consumed, so the
result is identical for every suffix — and the returned stats have
`completed = true`.  Conversely a stream that ends without a stop line
yields `completed = false`, and a transport error yields no stats at
all. -/
theorem c3_stop_terminates (parse : List Nat → Option StreamChunk)
    (pre : List (List Nat)) (stopL suffix : List Nat)
    (h1 : ∀ l ∈ pre, noNL l = true)
    (h2 : ∀ l ∈ pre, lineStops parse l = false)
    (h3 : noNL stopL = true)
    (h4 : lineStops parse stopL = true)
    (hv1 : utf8Valid (joinLines (pre ++ [stopL]) ++ suffix) = true)
    (hv2 : utf8Valid (joinLines (pre ++ [stopL])) = true) :
    (∃ txt stats evs,
       process_stream parse [NetChunk.ok (joinLines (pre ++ [stopL]) ++ suffix)]
         = some (txt, stats, evs)
       ∧ process_stream parse [NetChunk.ok (joinLines (pre ++ [stopL]))]
         = some (txt, stats, evs)
       ∧ stats.completed = true)
    ∧ (∀ ls : List (List Nat),
        (∀ l ∈ ls, noNL l = true) → (∀ l ∈ ls, lineStops parse l = false) →
        utf8Valid (joinLines ls) = true →
        ∃ txt stats evs,
          process_stream parse [NetChunk.ok (joinLines ls)] = some (txt, stats, evs)
          ∧ stats.completed = false)
    ∧ (∀ rest : List NetChunk,
        process_stream parse (NetChunk.ok (joinLines pre) :: NetChunk.err :: rest)
          = none) := by
  have hnl : ∀ l ∈ pre ++ [stopL], noNL l = true := by
    intro l hl
    rcases List.mem_append.mp hl with h | h
    · exact h1 l h
    · simp at h; subst h; exact h3
  have hfoldc : (foldLines parse (pre ++ [stopL]) initCore).completed = true := by
    rw [foldLines_append parse pre [stopL] initCore rfl]
    obtain ⟨a1, _, _, _⟩ := foldLines_accum parse pre initCore rfl h2
    simp only [a1, Bool.false_eq_true, if_false]
    simp only [foldLines, processLine_stop parse _ stopL h4]
    simp
  refine ⟨?_, ?_, ?_⟩
  · obtain ⟨b1, hrun1⟩ := runStream_flatten parse
      [joinLines (pre ++ [stopL]) ++ suffix] [] initCore
      (by intro c hc; simp at hc; subst hc; exact hv1) rfl rfl
    obtain ⟨b2, hrun2⟩ := runStream_flatten parse
      [joinLines (pre ++ [stopL])] [] initCore
      (by intro c hc; simp at hc; subst hc; exact hv2) rfl rfl
    simp only [List.map_cons, List.map_nil] at hrun1 hrun2
    have hj1 : (([] : List Nat)
        ++ ([joinLines (pre ++ [stopL]) ++ suffix] : List (List Nat)).flatten)
        = joinLines (pre ++ [stopL]) ++ suffix := by simp
    have hj2 : (([] : List Nat)
        ++ ([joinLines (pre ++ [stopL])] : List (List Nat)).flatten)
        = joinLines (pre ++ [stopL]) ++ [] := by simp
    rw [hj1, processLines_join parse _ initCore suffix hnl rfl (Or.inl hfoldc)] at hrun1
    rw [hj2, processLines_join parse _ initCore [] hnl rfl (Or.inr rfl)] at hrun2
    refine ⟨(mkResult (foldLines parse (pre ++ [stopL]) initCore)).1,
            (mkResult (foldLines parse (pre ++ [stopL]) initCore)).2.1,
            (mkResult (foldLines parse (pre ++ [stopL]) initCore)).2.2, ?_, ?_, ?_⟩
    · rw [process_stream, hrun1]
    · rw [process_stream, hrun2]
    · exact hfoldc
  · intro ls hlnl hlns hlv
    obtain ⟨b, hrun⟩ := runStream_flatten parse [joinLines ls] [] initCore
      (by intro c hc; simp at hc; subst hc; exact hlv) rfl rfl
    simp only [List.map_cons, List.map_nil] at hrun
    have hj : (([] : List Nat) ++ ([joinLines ls] : List (List Nat)).flatten)
        = joinLines ls ++ [] := by simp
    rw [hj, processLines_join parse _ initCore [] hlnl rfl (Or.inr rfl)] at hrun
    obtain ⟨a1, _, _, _⟩ := foldLines_accum parse ls initCore rfl hlns
    refine ⟨(mkResult (foldLines parse ls initCore)).1,
            (mkResult (foldLines parse ls initCore)).2.1,
            (mkResult (foldLines parse ls initCore)).2.2, ?_, ?_⟩
    · rw [process_stream, hrun]
    · exact a1
  · intro rest
    have hcore2 : ∀ bytes2 : List Nat,
        (processLines parse ([] ++ bytes2) initCore)
          = ((processLines parse ([] ++ bytes2) initCore).1,
             (processLines parse ([] ++ bytes2) initCore).2) := fun _ => rfl
    rw [process_stream]
    simp only [runStream]
    by_cases hvp : utf8Valid (joinLines pre) = true
    · simp only [hvp, if_true]
      have hcore : (processLines parse ([] ++ joinLines pre) initCore).2
          = foldLines parse pre initCore := by
        have hx : ([] : List Nat) ++ joinLines pre = joinLines pre ++ [] := by simp
        rw [hx]
        exact processLines_join parse pre initCore [] h1 rfl (Or.inr rfl)
      obtain ⟨a1, _, _, _⟩ := foldLines_accum parse pre initCore rfl h2
      rw [hcore2 (joinLines pre)]
      simp only [hcore, a1, Bool.false_eq_true, if_false]
    · simp only [hvp, Bool.false_eq_true, if_false]
      rw [show processLines parse (([] : List Nat) ++ []) initCore = ([], initCore)
            from processLines_none parse ([] ++ []) initCore rfl]
      simp [initCore]

/-- C3 witness: the spec's concrete scenario — `Hi`, then the stop record,
with the trailing sentinel line as the unconsumed suffix. -/
theorem c3_stop_terminates_witness :
    ((∀ l ∈ [lineHi], noNL l = true)
     ∧ (∀ l ∈ [lineHi], lineStops parseSpec l = false)
     ∧ noNL lineStop = true
     ∧ lineStops parseSpec lineStop = true)
    ∧ (∃ txt stats evs,
        process_stream parseSpec
          [NetChunk.ok (joinLines ([lineHi] ++ [lineStop]) ++ (lineDone ++ [10]))]
          = some (txt, stats, evs)
        ∧ process_stream parseSpec [NetChunk.ok (joinLines ([lineHi] ++ [lineStop]))]
          = some (txt, stats, evs)
        ∧ stats.completed = true) := by
  refine ⟨⟨by decide, by decide, by decide, by decide⟩, ?_⟩
  exact (c3_stop_terminates parseSpec [lineHi] lineStop (lineDone ++ [10])
    (by decide) (by decide) (by decide) (by decide) (by decide) (by decide)).1

/-! ## Claim C1: chunk-boundary independence -/

/-- Disjoint per-element counts add up. -/
theorem countP_or_disjoint (p q : List Nat → Bool) :
    ∀ ls : List (List Nat), (∀ l ∈ ls, ¬(p l = true ∧ q l = true)) →
    ls.countP (fun l => p l || q l) = ls.countP p + ls.countP q := by
  intro ls
  induction ls with
  | nil => intro _; simp
  | cons x xs ih =>
    intro h
    have hx := h x (by simp)
    have ihx := ih (fun l hl => h l (by simp [hl]))
    simp only [List.countP_cons, ihx]
    by_cases hp : p x = true
    · have hq : q x = false := by
        cases hqx : q x with
        | false => rfl
        | true => exact absurd ⟨hp, hqx⟩ hx
      simp [hp, hq]
      omega
    · have hp' : p x = false := by simpa using hp
      by_cases hq : q x = true
      · simp [hp', hq]
        omega
      · have hq' : q x = false := by simpa using hq
        simp [hp', hq']

set_option maxRecDepth 16000 in
/-- C1 (counterexample to the claim as stated): the same bytes — one
well-formed non-ignorable text line whose content holds a two-byte UTF-8
character, followed by a stop line — decode to one event and
`completed = true` when delivered whole, but when split between the two
bytes of the character both chunks fail the decoder's UTF-8 conversion and
are silently dropped: no event is delivered and `completed = false`.
Chunk-boundary independence fails for splits that cut a UTF-8 character. -/
theorem c1_utf8_split_counterexample :
    ((joinLines [lineAccent, lineStop]).take 40
        ++ (joinLines [lineAccent, lineStop]).drop 40
      = joinLines ([lineAccent] ++ [lineStop]))
    ∧ noNL lineAccent = true
    ∧ lineStops parseSpec lineAccent = false
    ∧ lineTextEvent parseSpec lineAccent = true
    ∧ lineStops parseSpec lineStop = true
    ∧ process_stream parseSpec
        [NetChunk.ok (joinLines ([lineAccent] ++ [lineStop]))]
        = some ([195, 169], ⟨some 0, 1, 1, 0, 0, 0, true⟩, [Ev.text [195, 169]])
    ∧ process_stream parseSpec
        [NetChunk.ok ((joinLines [lineAccent, lineStop]).take 40),
         NetChunk.ok ((joinLines [lineAccent, lineStop]).drop 40)]
        = some ([], ⟨none, 0, 0, 0, 0, 0, false⟩, []) := by
  exact ⟨by decide, by decide, by decide, by decide, by decide, by decide, by decide⟩

/-- C1 (amended): for every sequence of byte chunks, each of which is
valid UTF-8 (splits respect character boundaries), whose concatenation
forms well-formed protocol lines — newline-free, not stop lines, each
delivering at most one kind of delta — followed by a stop line,
`process_stream` yields `completed = true` and delivers exactly one
text/audio event per non-ignorable line before the stop, for every such
way of splitting the same bytes across chunks. -/
theorem c1_chunk_boundary_independence (parse : List Nat → Option StreamChunk)
    (cs pre : List (List Nat)) (stopL : List Nat)
    (hv : ∀ c ∈ cs, utf8Valid c = true)
    (hcat : cs.flatten = joinLines (pre ++ [stopL]))
    (hnl : ∀ l ∈ pre, noNL l = true)
    (hns : ∀ l ∈ pre, lineStops parse l = false)
    (hone : ∀ l ∈ pre, ¬(lineTextEvent parse l = true ∧ lineAudioEvent parse l = true))
    (h3 : noNL stopL = true)
    (h4 : lineStops parse stopL = true) :
    ∃ txt stats evs,
      process_stream parse (cs.map NetChunk.ok) = some (txt, stats, evs)
      ∧ stats.completed = true
      ∧ stats.text_chunk_count + evs.countP (fun e => e.isAudio)
          = pre.countP (fun l => lineTextEvent parse l || lineAudioEvent parse l) := by
  have hnl2 : ∀ l ∈ pre ++ [stopL], noNL l = true := by
    intro l hl
    rcases List.mem_append.mp hl with h | h
    · exact hnl l h
    · simp at h; subst h; exact h3
  obtain ⟨b, hrun⟩ := runStream_flatten parse cs [] initCore hv rfl rfl
  rw [hcat] at hrun
  have hj : (([] : List Nat) ++ joinLines (pre ++ [stopL]))
      = joinLines (pre ++ [stopL]) ++ [] := by simp
  rw [hj, processLines_join parse _ initCore [] hnl2 rfl (Or.inr rfl)] at hrun
  obtain ⟨a1, a2, a3, a4⟩ := foldLines_accum parse pre initCore rfl hns
  have hfold : foldLines parse (pre ++ [stopL]) initCore
      = { foldLines parse pre initCore with completed := true } := by
    rw [foldLines_append parse pre [stopL] initCore rfl]
    simp only [a1, Bool.false_eq_true, if_false]
    simp only [foldLines, processLine_stop parse _ stopL h4]
    simp
  refine ⟨(mkResult (foldLines parse (pre ++ [stopL]) initCore)).1,
          (mkResult (foldLines parse (pre ++ [stopL]) initCore)).2.1,
          (mkResult (foldLines parse (pre ++ [stopL]) initCore)).2.2, ?_, ?_, ?_⟩
  · rw [process_stream, hrun]
  · show (foldLines parse (pre ++ [stopL]) initCore).completed = true
    rw [hfold]
  · show (foldLines parse (pre ++ [stopL]) initCore).text_chunks.length
        + ((foldLines parse (pre ++ [stopL]) initCore).events).countP (fun e => e.isAudio)
        = _
    rw [hfold]
    dsimp only
    rw [a2, a3]
    rw [countP_or_disjoint (lineTextEvent parse) (lineAudioEvent parse) pre hone]
    simp [initCore]

set_option maxRecDepth 16000 in
/-- C1 witness: three ASCII lines (text, audio, stop) split mid-line into
two valid chunks decode to `completed = true` and exactly two events. -/
theorem c1_chunk_boundary_independence_witness :
    ((∀ c ∈ [(joinLines [lineHi, lineAudio, lineStop]).take 20,
             (joinLines [lineHi, lineAudio, lineStop]).drop 20], utf8Valid c = true)
     ∧ ([(joinLines [lineHi, lineAudio, lineStop]).take 20,
         (joinLines [lineHi, lineAudio, lineStop]).drop 20] : List (List Nat)).flatten
         = joinLines ([lineHi, lineAudio] ++ [lineStop]))
    ∧ ∃ txt stats evs,
        process_stream parseSpec
          ([(joinLines [lineHi, lineAudio, lineStop]).take 20,
            (joinLines [lineHi, lineAudio, lineStop]).drop 20].map NetChunk.ok)
          = some (txt, stats, evs)
        ∧ stats.completed = true
        ∧ stats.text_chunk_count + evs.countP (fun e => e.isAudio)
            = ([lineHi, lineAudio] : List (List Nat)).countP
                (fun l => lineTextEvent parseSpec l || lineAudioEvent parseSpec l) := by
  refine ⟨⟨by decide, by decide⟩, ?_⟩
  exact c1_chunk_boundary_independence parseSpec
    [(joinLines [lineHi, lineAudio, lineStop]).take 20,
     (joinLines [lineHi, lineAudio, lineStop]).drop 20]
    [lineHi, lineAudio] lineStop
    (by decide) (by decide) (by decide) (by decide) (by decide) (by decide) (by decide)

end LiquidAudio
